import Mathlib

/-!
# Verification of the RD-Minecraft-Tools scanning / tag-resolution pipeline

This file gives a shallow embedding, in Lean 4, of the core algorithms of the
repository:

* the convergence-based identifier cleaner
  (`src/affix_cleaner.py`, `src/identifier_cleaner.py`,
  `src/processors/cleaner/identifier.py`),
* the tag extractor and the tag reference resolver
  (`tools/scanners/tags/tag_processor.py`),
* the incremental tag scanner's value extraction and batched output writer
  (`core/scanner/tags.py`),
* filename sanitisation (`core/utils/item.py`),
* thread-count selection (`src/arg_parser.py`, `src/utils/threading.py`,
  `src/scanner_common.py`),
* the empty-input behaviour of the scanner entry points
  (`src/jar_processor.py`, `src/scanner_common.py`, `core/scanner/mods.py`).

Python strings are modelled as `List Char` (for the character-level cleaner)
or as Lean `String`s; Python sets are modelled as duplicate-free lists with
insertion-order semantics; Python dicts are modelled as association lists in
insertion order.  Machine-level concerns (actual file descriptors, threads,
zip decoding) are modelled by explicit state or event logs.  JSON values are
modelled by an inductive type `Json`; `json.loads` failures (and the regex
fall-back paths guarded by them) are outside the scope of the claims proved
here and are not modelled.
-/

namespace RDTools

set_option maxRecDepth 100000

/-! ## Python string primitives

`endsw s a` models Python's `s.endswith(a)`; `s.take (s.length - n)` models
the slice `s[:-n]` for `n ≥ 1`. -/

/-- Python `s.endswith(suffix)` on character lists. -/
def endsw (s : List Char) (suffix : List Char) : Bool :=
  s.drop (s.length - suffix.length) == suffix

/-- Python `c in s` for a single character. -/
def pyContains (c : Char) (s : String) : Bool :=
  s.data.contains c

/-- Python `s.startswith(c)` for a single-character argument. -/
def pyStarts (c : Char) (s : String) : Bool :=
  match s.data with
  | [] => false
  | d :: _ => d == c

/-- Helper for Python `s.split(sep, 1)`: split at the first occurrence of
`sep`, returning the parts before and after it, or `none` when `sep` does not
occur. -/
def splitOnce (sep : Char) : List Char → Option (List Char × List Char)
  | [] => none
  | c :: rest =>
    if c = sep then some ([], rest)
    else
      match splitOnce sep rest with
      | some (a, b) => some (c :: a, b)
      | none => none

/-- Python `s.split(sep, 1)` on strings (only the two-part success case is
needed: the code always guards the split with a containment test). -/
def pySplitOnce (sep : Char) (s : String) : Option (String × String) :=
  match splitOnce sep s.data with
  | some (a, b) => some (String.mk a, String.mk b)
  | none => none

/-- Python `s.lstrip(c)` for a single-character argument: drop every leading
occurrence of `c`. -/
def pyLstrip (c : Char) (s : String) : String :=
  String.mk (s.data.dropWhile (fun d => d == c))

/-- Python `s.replace(old, new)` for a single-character `old`: every
occurrence of the character `old` is replaced by the string `new`. -/
def pyReplaceChar (old : Char) (new : String) (s : String) : String :=
  String.mk (s.data.foldr (fun ch acc => if ch = old then new.data ++ acc else ch :: acc) [])

/-! ## Identifier cleaner (`src/affix_cleaner.py`, `src/identifier_cleaner.py`)

`AFFIX_GROUPS` is the affix table exactly as written in
`src/affix_cleaner.py`; Python dicts preserve insertion order, so the
flattened `AFFIXES` list is the concatenation of the groups in source
order. -/

def AFFIX_GROUPS : List (String × List String) := [
  ("orientation_faces", [
    "_bottom", "_top", "_front", "_back", "_left", "_right", "_side", "_reverse", "_base"]),
  ("orientation_corners", [
    "_corner", "_inner", "_outer", "_noside", "_nosides", "_inside"]),
  ("orientation_vertical", [
    "_up", "_down", "_upper", "_lower", "_middle", "_mid", "_center", "_centered", "_main", "_full"]),
  ("orientation_horizontal", [
    "_horizontal", "_ew", "_ns", "_x", "_z"]),
  ("orientation_end", [
    "_end", "_post", "_even", "_odd", "_foot", "_head", "_far", "_gate_wall"]),
  ("orientation_size", [
    "_single", "_double", "_tall", "_plus", "_adv"]),
  ("state_binary", [
    "_open", "_opened", "_close", "_closed", "_on", "_off", "_pressed", "_extended",
    "_connected", "_occupied", "_empty", "_filled", "_drained",
    "_activated", "_lit", "_weak", "_supported", "_support",
    "_moist", "_unused", "_alt", "_wet", "_decorated", "_tied",
    "_extrudes", "_garnish", "_leftover", "_active", "_inactive",
    "_monster", "_player", "_emissive", "_body", "_bone", "_stabilized", "_unlinked"]),
  ("state_progression", [
    "_new", "_old",
    "_one", "_two", "_three", "_four", "_five",
    "_0", "_1", "_2", "_3", "_4", "_5", "_6", "_7", "_8", "_9", "_10",
    "0", "1", "2", "3", "4", "5", "6", "7", "8", "9", "10",
    "_age0", "_age1", "_age2", "_age3", "_age4", "_age5",
    "_age6", "_age7", "_age8", "_age9", "_age10", "_stage",
    "_stage0", "_stage1", "_stage2", "_stage3", "_stage4", "_stage5",
    "_stage6", "_stage7", "_stage8", "_stage9", "_stage10",
    "_slice0", "_slice1", "_slice2", "_slice3", "_slice4", "_slice5",
    "_slice6", "_slice7", "_slice8", "_slice9", "_slice10", "_level",
    "_level0", "_level1", "_level2", "_level3", "_level4", "_level5",
    "_level6", "_level7", "_level8", "_level9", "_level10"]),
  ("state_content", ["_honey", "_water"]),
  ("inventory", ["_inventory", "_slot"]),
  ("ctm_meta", ["-ctm"]),
  ("misc_suffixes", ["_with", "_t"])]

/-- `AFFIXES = [a for group in AFFIX_GROUPS.values() for a in group]`. -/
def AFFIXES : List String := List.flatten (AFFIX_GROUPS.map Prod.snd)

/-- `DEFAULT_EXTENSIONS = (".png", ".jpeg", ".jpg", ".gif")`. -/
def DEFAULT_EXTENSIONS : List String := [".png", ".jpeg", ".jpg", ".gif"]

/-- `FLUID_EXTENSIONS = (".png", ".jpeg", ".jpg", ".gif", ".json")`. -/
def FLUID_EXTENSIONS : List String := [".png", ".jpeg", ".jpg", ".gif", ".json"]

/-- One `for x in table: if stem.endswith(x): stem = stem[:-len(x)]` loop:
each table entry is tested once, in order, against the *current* stem, and
stripped whenever it matches. -/
def stripMatching (table : List String) (s : List Char) : List Char :=
  table.foldl
    (fun st a =>
      if endsw st a.data then st.take (st.length - a.data.length) else st) s

/-- The body of the cleaning `while` loop in `clean_identifier_thorough`
(and, identically, in `IdentifierCleaner.clean`): strip extensions, then
strip affixes. -/
def cleanPass (exts : List String) (s : List Char) : List Char :=
  stripMatching AFFIXES (stripMatching exts s)

/-- The cleaning `while` loop: stop as soon as a pass changes nothing, or
when `max_iterations` changing passes have run. -/
def cleanLoop (exts : List String) : Nat → List Char → List Char
  | 0, s => s
  | fuel + 1, s =>
    let t := cleanPass exts s
    if t = s then t else cleanLoop exts fuel t

/-- `clean_identifier_thorough(stem, extensions=DEFAULT_EXTENSIONS,
max_iterations=100)` from `src/identifier_cleaner.py`.
`IdentifierCleaner.clean` in `src/processors/cleaner/identifier.py` is the
same loop with the same defaults. -/
def clean_identifier_thorough (s : List Char)
    (exts : List String := DEFAULT_EXTENSIONS) (maxIterations : Nat := 100) :
    List Char :=
  cleanLoop exts maxIterations s

/-! ### Basic facts about the cleaner -/

theorem endsw_length_le {s a : List Char} (h : endsw s a = true) :
    a.length ≤ s.length := by
  unfold endsw at h
  have he : s.drop (s.length - a.length) = a := eq_of_beq h
  have hl : (s.drop (s.length - a.length)).length = a.length := by rw [he]
  rw [List.length_drop] at hl
  omega

theorem stripMatching_length_le (table : List String) (s : List Char) :
    (stripMatching table s).length ≤ s.length := by
  induction table generalizing s with
  | nil => exact Nat.le_refl _
  | cons a t ih =>
    have hstep : (if endsw s a.data then s.take (s.length - a.data.length) else s).length
        ≤ s.length := by
      by_cases h : endsw s a.data = true
      · rw [if_pos h, List.length_take]
        exact min_le_right _ _
      · rw [if_neg h]
    exact Nat.le_trans (ih _) hstep

theorem stripMatching_eq_or_lt (table : List String)
    (hne : ∀ a ∈ table, a.data ≠ []) (s : List Char) :
    stripMatching table s = s ∨ (stripMatching table s).length < s.length := by
  induction table generalizing s with
  | nil => exact Or.inl rfl
  | cons a t ih =>
    have hastep : stripMatching (a :: t) s
        = stripMatching t (if endsw s a.data then s.take (s.length - a.data.length) else s) := rfl
    by_cases h : endsw s a.data = true
    · right
      have ha : a.data ≠ [] := hne a (by simp)
      have halen : 0 < a.data.length := List.length_pos.mpr ha
      have hle : a.data.length ≤ s.length := endsw_length_le h
      have hlt : (s.take (s.length - a.data.length)).length < s.length := by
        rw [List.length_take]
        exact lt_of_le_of_lt (min_le_left _ _) (by omega)
      rw [hastep, if_pos h]
      exact lt_of_le_of_lt (stripMatching_length_le _ _) hlt
    · rw [hastep, if_neg h]
      exact ih (fun x hx => hne x (List.mem_cons_of_mem a hx)) s

theorem affixes_nonempty : ∀ a ∈ AFFIXES, a.data ≠ [] := by decide

theorem default_extensions_nonempty : ∀ a ∈ DEFAULT_EXTENSIONS, a.data ≠ [] := by decide

theorem cleanPass_eq_or_lt (s : List Char) :
    cleanPass DEFAULT_EXTENSIONS s = s ∨ (cleanPass DEFAULT_EXTENSIONS s).length < s.length := by
  unfold cleanPass
  rcases stripMatching_eq_or_lt DEFAULT_EXTENSIONS default_extensions_nonempty s with h1 | h1
  · rw [h1]
    exact stripMatching_eq_or_lt AFFIXES affixes_nonempty s
  · rcases stripMatching_eq_or_lt AFFIXES affixes_nonempty (stripMatching DEFAULT_EXTENSIONS s) with h2 | h2
    · right; rw [h2]; exact h1
    · right; exact Nat.lt_trans h2 h1

theorem cleanLoop_of_fixed {exts : List String} {s : List Char}
    (h : cleanPass exts s = s) : ∀ fuel, cleanLoop exts fuel s = s := by
  intro fuel
  cases fuel with
  | zero => rfl
  | succ f => simp [cleanLoop, h]

theorem cleanLoop_converges (fuel : Nat) (s : List Char)
    (h : s.length ≤ fuel) :
    cleanPass DEFAULT_EXTENSIONS (cleanLoop DEFAULT_EXTENSIONS fuel s)
      = cleanLoop DEFAULT_EXTENSIONS fuel s := by
  induction fuel generalizing s with
  | zero =>
    have hnil : s = [] := List.length_eq_zero.mp (Nat.le_zero.mp h)
    subst hnil
    have h1 := stripMatching_length_le DEFAULT_EXTENSIONS ([] : List Char)
    have h3 := stripMatching_length_le AFFIXES (stripMatching DEFAULT_EXTENSIONS [])
    simp only [List.length_nil] at h1
    have h2 : (cleanPass DEFAULT_EXTENSIONS []).length ≤ 0 := by
      unfold cleanPass
      omega
    have h4 : cleanPass DEFAULT_EXTENSIONS [] = [] :=
      List.length_eq_zero.mp (Nat.le_zero.mp h2)
    simpa [cleanLoop] using h4
  | succ f ih =>
    by_cases hfix : cleanPass DEFAULT_EXTENSIONS s = s
    · have hloop : cleanLoop DEFAULT_EXTENSIONS (f + 1) s = s := by
        simp [cleanLoop, hfix]
      rw [hloop]
      exact hfix
    · have hloop : cleanLoop DEFAULT_EXTENSIONS (f + 1) s
          = cleanLoop DEFAULT_EXTENSIONS f (cleanPass DEFAULT_EXTENSIONS s) := by
        simp [cleanLoop, hfix]
      rw [hloop]
      rcases cleanPass_eq_or_lt s with h1 | h1
      · exact absurd h1 hfix
      · exact ih _ (by omega)

/-- C4 counterexample input: one hundred and one `'0'` characters.  The bare
digit `"0"` is in the affix table (`state_progression`), so each pass strips
exactly one trailing zero; the cap of 100 passes leaves one zero behind. -/
def zeros101 : List Char := List.replicate 101 '0'

/-- C4 (counterexample): cleaning is *not* idempotent for every string.  On a
string of 101 `'0'` characters the 100-iteration cap stops the loop one pass
early: `clean` returns `"0"`, and cleaning that result again yields `""`. -/
theorem C4_clean_not_idempotent_cex :
    clean_identifier_thorough zeros101 = ['0'] ∧
    clean_identifier_thorough (clean_identifier_thorough zeros101) = [] ∧
    clean_identifier_thorough (clean_identifier_thorough zeros101)
      ≠ clean_identifier_thorough zeros101 := by
  refine ⟨by decide, by decide, by decide⟩

/-- C4 (amended): `clean(clean(x)) == clean(x)` holds for every identifier
whose cleaning converges within the iteration cap; in particular it holds for
every identifier of at most 100 characters, because each changing pass
removes at least one character.  (Identifiers longer than 100 characters can
be cut off mid-cleaning by the cap, as the counterexample shows.) -/
theorem C4_clean_idempotent_of_short (s : List Char) (h : s.length ≤ 100) :
    clean_identifier_thorough (clean_identifier_thorough s)
      = clean_identifier_thorough s := by
  have hconv := cleanLoop_converges 100 s h
  unfold clean_identifier_thorough
  exact cleanLoop_of_fixed hconv 100

/-- C4 witness: the theorem applied to the concrete identifier
`stone_top_side.png` (which cleans to `stone`). -/
theorem C4_clean_idempotent_witness :
    ("stone_top_side.png".data.length ≤ 100) ∧
    clean_identifier_thorough (clean_identifier_thorough "stone_top_side.png".data)
      = clean_identifier_thorough "stone_top_side.png".data := by
  exact ⟨by decide, C4_clean_idempotent_of_short "stone_top_side.png".data (by decide)⟩

/-- The pass described by the claim wording for C5: after stripping
extensions, remove only the *first* matching affix in table order — at most
one affix per pass.  (Modelled from the claim, for comparison with the
code's `cleanPass`.) -/
def claimRemoveFirstAffix : List String → List Char → List Char
  | [], s => s
  | a :: rest, s =>
    if endsw s a.data then s.take (s.length - a.data.length)
    else claimRemoveFirstAffix rest s

/-- The one-affix-per-pass cleaning pass as described by claim C5. -/
def claimCleanPass (exts : List String) (s : List Char) : List Char :=
  claimRemoveFirstAffix AFFIXES (stripMatching exts s)

/-- C5 (counterexample): the cleaner does *not* remove at most one affix per
pass.  On `dirt_side_top` a single pass of the code strips `_top` and then
`_side` (two affixes, because after `_top` is stripped the scan continues
down the table and `_side` comes later in table order than `_top`), giving
`dirt`; removing only the first matching affix in table order would give
`dirt_side`. -/
theorem C5_one_affix_per_pass_cex :
    cleanPass DEFAULT_EXTENSIONS "dirt_side_top".data = "dirt".data ∧
    claimCleanPass DEFAULT_EXTENSIONS "dirt_side_top".data = "dirt_side".data ∧
    "dirt".data ≠ "dirt_side".data := by
  refine ⟨by decide, by decide, by decide⟩

/-- C5 (amended): each pass strips every recognised extension suffix, then
walks the affix table once in its fixed order and strips *each* affix that
matches the stem at the moment it is tested.  Stacked affixes whose table
positions decrease outward (such as `dirt_top_side`: `_side` is tested after
`_top`) are peeled one per pass across successive passes, exactly as in the
spec's example `dirt_top_side → dirt_top → dirt`; stacked affixes in
increasing table order (such as `dirt_side_top`) are all removed within a
single pass. -/
theorem C5_pass_behaviour :
    cleanPass DEFAULT_EXTENSIONS "dirt_top_side".data = "dirt_top".data ∧
    cleanPass DEFAULT_EXTENSIONS "dirt_top".data = "dirt".data ∧
    clean_identifier_thorough "dirt_top_side".data = "dirt".data ∧
    cleanPass DEFAULT_EXTENSIONS "dirt_side_top".data = "dirt".data := by
  refine ⟨by decide, by decide, by decide, by decide⟩

/-! ## Python sets and dicts

Python `set`s are modelled as duplicate-free lists in insertion order
(`setInsert` adds a missing element at the end, `update` is a fold of
inserts, set difference is a filter).  Python `dict`s — including
`defaultdict(set)` — are modelled as association lists in insertion order:
updating an existing key keeps its position, a new key is appended at the
end, and a `defaultdict` read of a missing key appends an empty entry
(`mtouch`). -/

/-- Elements of the item / reference sets. -/
abbrev Items := List String

/-- `s.add(x)` on a Python set (no-op when present, appended when absent). -/
def setInsert (l : Items) (x : String) : Items :=
  if x ∈ l then l else l ++ [x]

/-- `s.update(add)` on a Python set. -/
def setUnion (l add : Items) : Items :=
  add.foldl setInsert l

/-- `a - b` on Python sets. -/
def setDiff (a b : Items) : Items :=
  a.filter (fun x => !(b.contains x))

/-- Python dicts with string keys, in insertion order. -/
abbrev SMap := List (String × Items)

/-- `d.get(k, [])`: value of `k`, or the empty set when absent. -/
def mgetD (k : String) (m : SMap) : Items :=
  (m.lookup k).getD []

/-- `d[k] = v`: replace the first binding of `k` in place, or append. -/
def mset {α : Type} (k : String) (v : α) : List (String × α) → List (String × α)
  | [] => [(k, v)]
  | (k', v') :: rest => if k' = k then (k, v) :: rest else (k', v') :: mset k v rest

/-- The insertion effect of reading `d[k]` on a `defaultdict(set)`: a missing
key is bound to the empty set (at the end, as Python appends new keys). -/
def mtouch (k : String) (m : SMap) : SMap :=
  if (m.lookup k).isSome then m else m ++ [(k, [])]

/-! ## JSON values

Tag and recipe files are JSON; `Json` models the parse result of
`json.loads`.  The claims under verification only concern well-formed JSON,
so `json.loads` failures (and the regex fall-back branches they guard) are
not modelled. -/

inductive Json where
  | null
  | bool (b : Bool)
  | num (n : Int)
  | str (s : String)
  | arr (xs : List Json)
  | obj (fields : List (String × Json))

/-! ## Tag extraction (`tools/scanners/tags/tag_processor.py`)

`TagExtractor.extract_from_tag_file` walks the `values` array of a tag JSON
object: a string value starting with `#` is a tag reference (the `#` is
removed, and the reference is kept only when it contains `/`); any other
string value is a direct item (kept only when it contains `:`); non-string
values are ignored. -/

/-- One step of the `for value in values` loop of
`extract_from_tag_file`. -/
def tagValueStep (acc : Items × Items) (v : Json) : Items × Items :=
  match v with
  | Json.str s =>
    if pyStarts '#' s then
      let ref := String.mk (s.data.drop 1)
      if pyContains '/' ref then (acc.1, setInsert acc.2 ref) else acc
    else if pyContains ':' s then (setInsert acc.1 s, acc.2) else acc
  | _ => acc

/-- `TagExtractor.extract_from_tag_file` (the parsed-JSON branch): returns
`(items, tag_references)`. -/
def extract_from_tag_file (data : Json) : Items × Items :=
  match data with
  | Json.obj fields =>
    match fields.lookup "values" with
    | some (Json.arr values) => values.foldl tagValueStep ([], [])
    | _ => ([], [])
  | _ => ([], [])

/-! ## Tag reference resolver (`tools/scanners/tags/tag_processor.py`)

`TagData` is the dataclass of the same name.  A JAR file is modelled as an
association list from entry path to parsed JSON content (`namelist`
membership is `lookup ... |>.isSome`).  `resolve_references` mutates a
`TagData` in passes until a pass adds no items or `max_iterations` passes
have run. -/

structure TagData where
  tags_data : SMap
  tag_references : SMap
  tag_file_map : List (String × String)

/-- A JAR/ZIP archive: entry path to parsed JSON content. -/
abbrev Jar := List (String × Json)

/-- Candidate entry paths for an unresolved reference `ns:path`: the
`category/material` or bare-`category` layout, first under `tags/items`,
then under `tags/blocks` — exactly the four-branch construction in
`resolve_references`. -/
def refTagFiles (ref_ns ref_path : String) : List String :=
  match pySplitOnce '/' ref_path with
  | some (cat, mat) =>
    ["data/" ++ ref_ns ++ "/tags/items/" ++ cat ++ "/" ++ mat ++ ".json",
     "data/" ++ ref_ns ++ "/tags/blocks/" ++ cat ++ "/" ++ mat ++ ".json"]
  | none =>
    ["data/" ++ ref_ns ++ "/tags/items/" ++ ref_path ++ ".json",
     "data/" ++ ref_ns ++ "/tags/blocks/" ++ ref_path ++ ".json"]

/-- Body of `for ref_tag_file in ref_tag_files` in `resolve_references`: if
the candidate entry exists in the JAR, parse it, merge its items and
references into the referenced tag's record, remember its path, and add any
new items to the referring tag (setting `changed`). -/
def processCandidate (zf : Jar) (tag_id ref : String) (acc : TagData × Bool)
    (file : String) : TagData × Bool :=
  match zf.lookup file with
  | none => acc
  | some content =>
    let st := acc.1
    let extracted := extract_from_tag_file content
    let ref_items := extracted.1
    let ref_tag_refs := extracted.2
    let newRefTags := mset ref (setUnion (mgetD ref st.tags_data) ref_items) (mtouch ref st.tags_data)
    let st1 : TagData := { st with tags_data := newRefTags }
    let newRefRefs := mset ref (setUnion (mgetD ref st1.tag_references) ref_tag_refs) (mtouch ref st1.tag_references)
    let st2 : TagData := { st1 with tag_references := newRefRefs }
    let st3 : TagData := { st2 with tag_file_map := mset ref file st2.tag_file_map }
    let tid_items := mgetD tag_id st3.tags_data
    let st4 : TagData := { st3 with tags_data := mtouch tag_id st3.tags_data }
    let new_items := setDiff ref_items tid_items
    if new_items.isEmpty then (st4, acc.2)
    else ({ st4 with tags_data := mset tag_id (setUnion tid_items new_items) st4.tags_data },
          true)

/-- Body of `for ref in refs` in `resolve_references`: a reference to a
known tag pulls its items across (`changed` when anything new arrived); an
unknown reference of shape `ns:path` is looked up in the JAR through
`refTagFiles`; an unknown reference without `:` is skipped. -/
def processRef (zf : Jar) (tag_id : String) (st : TagData) (ref : String) :
    TagData × Bool :=
  match st.tags_data.lookup ref with
  | some ref_items_found =>
    let tid_items := mgetD tag_id st.tags_data
    let st1 : TagData := { st with tags_data := mtouch tag_id st.tags_data }
    let new_items := setDiff ref_items_found tid_items
    if new_items.isEmpty then (st1, false)
    else ({ st1 with tags_data := mset tag_id (setUnion tid_items new_items) st1.tags_data },
          true)
  | none =>
    match pySplitOnce ':' ref with
    | none => (st, false)
    | some (ref_ns, ref_path) =>
      (refTagFiles ref_ns ref_path).foldl (processCandidate zf tag_id ref) (st, false)

/-- Body of the outer `for tag_id, refs in list(tag_data.tag_references.items())`
loop: resolve each reference of one tag, accumulating the `changed` flag. -/
def resolvePassStep (zf : Jar) (acc : TagData × Bool) (entry : String × Items) :
    TagData × Bool :=
  entry.2.foldl
    (fun acc2 ref =>
      let next := processRef zf entry.1 acc2.1 ref
      (next.1, acc2.2 || next.2)) acc

/-- One full pass of the resolver `while` loop over the snapshot of
`tag_references`, returning the new state and the `changed` flag. -/
def resolvePass (zf : Jar) (st : TagData) : TagData × Bool :=
  st.tag_references.foldl (resolvePassStep zf) (st, false)

/-- The resolver `while changed and iteration < max_iterations` loop.
Returns the final state, the number of passes performed (the `iteration`
counter at exit), and whether the loop stopped because a pass made no
change (as opposed to hitting the iteration cap). -/
def resolveLoop (zf : Jar) : Nat → TagData → TagData × Nat × Bool
  | 0, st => (st, 0, false)
  | fuel + 1, st =>
    match resolvePass zf st with
    | (st1, false) => (st1, 1, true)
    | (st1, true) =>
      match resolveLoop zf fuel st1 with
      | (st2, n, conv) => (st2, n + 1, conv)

/-- `TagReferenceResolver.resolve_references(jar_path, tag_data,
max_iterations=10)`. -/
def resolve_references (zf : Jar) (st : TagData) (max_iterations : Nat := 10) :
    TagData × Nat × Bool :=
  resolveLoop zf max_iterations st

/-- The item set of a tag in a state (`tags_data` read, empty when the tag
is unknown). -/
def items (st : TagData) (t : String) : Items :=
  mgetD t st.tags_data

/-- State of the resolver after `n` full passes (the claims speak of "the
item set after pass `i`"). -/
def passes (zf : Jar) : Nat → TagData → TagData
  | 0, st => st
  | n + 1, st => passes zf n (resolvePass zf st).1

/-! ### Set and map lemmas -/

theorem setInsert_mem {l : Items} {x y : String} :
    y ∈ setInsert l x ↔ y ∈ l ∨ y = x := by
  unfold setInsert
  by_cases h : x ∈ l
  · rw [if_pos h]
    constructor
    · exact Or.inl
    · rintro (hy | rfl)
      · exact hy
      · exact h
  · rw [if_neg h]
    simp [List.mem_append]

theorem setUnion_mem {y : String} : ∀ {add l : Items},
    y ∈ setUnion l add ↔ y ∈ l ∨ y ∈ add := by
  intro add
  induction add with
  | nil => simp [setUnion]
  | cons a rest ih =>
    intro l
    show y ∈ setUnion (setInsert l a) rest ↔ _
    rw [ih, setInsert_mem, List.mem_cons]
    tauto

theorem setUnion_subset_left {l add : Items} : l ⊆ setUnion l add :=
  fun _ hy => setUnion_mem.mpr (Or.inl hy)

theorem setDiff_mem {a b : Items} {y : String} :
    y ∈ setDiff a b ↔ y ∈ a ∧ ¬ y ∈ b := by
  unfold setDiff
  rw [List.mem_filter]
  simp

theorem setDiff_empty_subset {a b : Items} (h : (setDiff a b).isEmpty = true) :
    a ⊆ b := by
  intro y hy
  by_contra hn
  have : y ∈ setDiff a b := setDiff_mem.mpr ⟨hy, hn⟩
  rw [List.isEmpty_iff] at h
  rw [h] at this
  exact absurd this (List.not_mem_nil y)

theorem lookup_append {α : Type} (t : String) (m m' : List (String × α)) :
    (m ++ m').lookup t
      = match m.lookup t with
        | some v => some v
        | none => m'.lookup t := by
  induction m with
  | nil => simp [List.lookup]
  | cons e rest ih =>
    obtain ⟨k, v⟩ := e
    by_cases h : t = k
    · subst h
      simp [List.lookup]
    · have hb : (t == k) = false := by
        simp [h]
      simp [List.lookup, hb, ih]

theorem lookup_mset {α : Type} (k : String) (v : α) (t : String) :
    ∀ (m : List (String × α)),
    (mset k v m).lookup t = if t = k then some v else m.lookup t := by
  intro m
  induction m with
  | nil =>
    by_cases h : t = k
    · have hb : (t == k) = true := beq_iff_eq.mpr h
      simp [mset, List.lookup, hb, h]
    · have hb : (t == k) = false := beq_eq_false_iff_ne.mpr h
      simp [mset, List.lookup, hb, h]
  | cons e rest ih =>
    obtain ⟨k', v'⟩ := e
    by_cases h1 : k' = k
    · subst h1
      by_cases h2 : t = k'
      · have hb : (t == k') = true := beq_iff_eq.mpr h2
        simp [mset, List.lookup, hb, h2]
      · have hb : (t == k') = false := beq_eq_false_iff_ne.mpr h2
        simp [mset, List.lookup, hb, h2]
    · by_cases h2 : t = k'
      · have hb : (t == k') = true := beq_iff_eq.mpr h2
        have h3 : ¬ t = k := fun hc => h1 (h2.symm.trans hc)
        simp [mset, h1, List.lookup, hb, h3]
      · have hb : (t == k') = false := beq_eq_false_iff_ne.mpr h2
        simp [mset, h1, List.lookup, hb, ih]

theorem mgetD_mset (k : String) (v : Items) (t : String) (m : SMap) :
    mgetD t (mset k v m) = if t = k then v else mgetD t m := by
  unfold mgetD
  rw [lookup_mset]
  by_cases h : t = k
  · simp [h]
  · simp [h]

theorem mgetD_mtouch (t k : String) (m : SMap) :
    mgetD t (mtouch k m) = mgetD t m := by
  unfold mtouch
  by_cases h : (m.lookup k).isSome
  · rw [if_pos h]
  · rw [if_neg h]
    unfold mgetD
    rw [lookup_append]
    cases hm : m.lookup t with
    | some v => simp
    | none =>
      simp only [List.lookup]
      by_cases ht : t = k
      · simp [ht]
      · have hb : (t == k) = false := by simp [ht]
        simp [hb]

theorem lookup_eq_mgetD {st : SMap} {r : String} {v : Items}
    (h : st.lookup r = some v) : mgetD r st = v := by
  unfold mgetD
  rw [h]
  rfl

/-! ### Monotonicity of the resolver (claim C1) -/

theorem mono_touch (k : String) (m : SMap) (t : String) :
    mgetD t m ⊆ mgetD t (mtouch k m) := by
  rw [mgetD_mtouch]
  exact List.Subset.refl _

theorem mono_set_union (k : String) (add : Items) (m : SMap) (t : String) :
    mgetD t m ⊆ mgetD t (mset k (setUnion (mgetD k m) add) m) := by
  rw [mgetD_mset]
  by_cases h : t = k
  · subst h
    rw [if_pos rfl]
    exact setUnion_subset_left
  · rw [if_neg h]
    exact List.Subset.refl _

theorem mono_update_touch (k : String) (add : Items) (m : SMap) (t : String) :
    mgetD t m ⊆ mgetD t (mset k (setUnion (mgetD k m) add) (mtouch k m)) := by
  intro y hy
  have e : mgetD k m = mgetD k (mtouch k m) := (mgetD_mtouch k k m).symm
  rw [e]
  exact mono_set_union k add (mtouch k m) t (mono_touch k m t hy)

theorem processCandidate_mono (zf : Jar) (tid ref : String) (acc : TagData × Bool)
    (file : String) (t : String) :
    items acc.1 t ⊆ items (processCandidate zf tid ref acc file).1 t := by
  unfold processCandidate
  cases hz : zf.lookup file with
  | none => exact fun y hy => hy
  | some content =>
    dsimp only [items]
    split
    · intro y hy
      exact mono_touch tid _ t (mono_update_touch ref _ _ t hy)
    · intro y hy
      exact mono_update_touch tid _ _ t (mono_update_touch ref _ _ t hy)

theorem processRef_mono (zf : Jar) (tid : String) (st : TagData) (ref : String)
    (t : String) :
    items st t ⊆ items (processRef zf tid st ref).1 t := by
  unfold processRef
  cases hz : st.tags_data.lookup ref with
  | some v =>
    dsimp only [items]
    split
    · exact mono_touch tid _ t
    · intro y hy
      exact mono_update_touch tid _ _ t hy
  | none =>
    cases hsp : pySplitOnce ':' ref with
    | none => exact fun y hy => hy
    | some p =>
      obtain ⟨ns, path⟩ := p
      simp only
      generalize refTagFiles ns path = files
      have hgen : ∀ (fs : List String) (acc : TagData × Bool),
          items acc.1 t ⊆ items (fs.foldl (processCandidate zf tid ref) acc).1 t := by
        intro fs
        induction fs with
        | nil => exact fun acc y hy => hy
        | cons f rest ih =>
          intro acc y hy
          exact ih (processCandidate zf tid ref acc f)
            (processCandidate_mono zf tid ref acc f t hy)
      exact hgen files (st, false)

theorem resolvePassStep_mono (zf : Jar) (acc : TagData × Bool)
    (entry : String × Items) (t : String) :
    items acc.1 t ⊆ items (resolvePassStep zf acc entry).1 t := by
  unfold resolvePassStep
  have hgen : ∀ (refs : List String) (acc2 : TagData × Bool),
      items acc2.1 t ⊆
        items (refs.foldl (fun acc2 ref =>
          let next := processRef zf entry.1 acc2.1 ref
          (next.1, acc2.2 || next.2)) acc2).1 t := by
    intro refs
    induction refs with
    | nil => exact fun acc2 y hy => hy
    | cons r rest ih =>
      intro acc2 y hy
      exact ih _ (processRef_mono zf entry.1 acc2.1 r t hy)
  exact hgen entry.2 acc

theorem resolvePass_mono (zf : Jar) (st : TagData) (t : String) :
    items st t ⊆ items (resolvePass zf st).1 t := by
  unfold resolvePass
  have hgen : ∀ (entries : SMap) (acc : TagData × Bool),
      items acc.1 t ⊆ items (entries.foldl (resolvePassStep zf) acc).1 t := by
    intro entries
    induction entries with
    | nil => exact fun acc y hy => hy
    | cons e rest ih =>
      intro acc y hy
      exact ih _ (resolvePassStep_mono zf acc e t hy)
  exact hgen st.tag_references (st, false)

/-- C1: fixpoint resolution is monotone — for every JAR, every starting
`TagData`, every pass index `i` and every tag `t`, the item set of `t` after
pass `i + 1` contains the item set of `t` after pass `i`; items are only
ever added, never removed. -/
theorem C1_resolver_items_monotone (zf : Jar) (st : TagData) (i : Nat) (t : String) :
    items (passes zf i st) t ⊆ items (passes zf (i + 1) st) t := by
  induction i generalizing st with
  | zero => exact resolvePass_mono zf st t
  | succ n ih => exact ih (resolvePass zf st).1

theorem resolveLoop_iterations_le (zf : Jar) :
    ∀ (m : Nat) (st : TagData), (resolveLoop zf m st).2.1 ≤ m := by
  intro m
  induction m with
  | zero => intro st; exact Nat.le_refl 0
  | succ f ih =>
    intro st
    cases hp : resolvePass zf st with
    | mk st1 changed =>
      cases changed with
      | false => simp [resolveLoop, hp]
      | true =>
        cases hl : resolveLoop zf f st1 with
        | mk st2 rest =>
          obtain ⟨n, conv⟩ := rest
          have hb := ih st1
          rw [hl] at hb
          simp only at hb
          simp only [resolveLoop, hp, hl]
          exact Nat.succ_le_succ hb

/-- C2: the resolver always terminates, and performs at most the configured
iteration cap of full passes — at most 10 with the default cap, and at most
`m` for any cap `m` — on every JAR and every starting `TagData` (cyclic or
self-referential reference graphs included; the loop is bounded by the cap
alone). -/
theorem C2_resolver_pass_bound (zf : Jar) (st : TagData) :
    (resolve_references zf st).2.1 ≤ 10 ∧
    ∀ m : Nat, (resolveLoop zf m st).2.1 ≤ m := by
  exact ⟨resolveLoop_iterations_le zf 10 st, fun m => resolveLoop_iterations_le zf m st⟩

/-! ### Order (in)dependence of the resolver (claim C3)

The reference graph of a collection: `Edge refs t r` says the entry for tag
`t` lists `r` among its references; `Reach` is its reflexive-transitive
closure.  For runs that (a) never load referenced tags from the JAR
on demand and (b) stop because a pass made no change, the final item sets
are exactly the initial item sets accumulated along `Reach` — hence
independent of the processing order. -/

def Edge (refs : SMap) (t r : String) : Prop :=
  ∃ rs, (t, rs) ∈ refs ∧ r ∈ rs

inductive Reach (refs : SMap) : String → String → Prop
  | refl (t : String) : Reach refs t t
  | step {t r s : String} : Edge refs t r → Reach refs r s → Reach refs t s

theorem Reach.trans {refs : SMap} {t s u : String}
    (h1 : Reach refs t s) (h2 : Reach refs s u) : Reach refs t u := by
  induction h1 with
  | refl => exact h2
  | step he _ ih => exact Reach.step he (ih h2)

theorem Reach.of_edges_mono {r1 r2 : SMap}
    (h : ∀ a b, Edge r1 a b → Edge r2 a b) {t s : String}
    (hr : Reach r1 t s) : Reach r2 t s := by
  induction hr with
  | refl => exact Reach.refl _
  | step he _ ih => exact Reach.step (h _ _ he) ih

/-- With an empty JAR, a candidate-file probe is a no-op. -/
theorem foldl_processCandidate_nil (tid ref : String) :
    ∀ (files : List String) (acc : TagData × Bool),
    files.foldl (processCandidate [] tid ref) acc = acc := by
  intro files
  induction files with
  | nil => intro acc; rfl
  | cons f rest ih =>
    intro acc
    show rest.foldl (processCandidate [] tid ref) (processCandidate [] tid ref acc f) = acc
    have hstep : processCandidate [] tid ref acc f = acc := rfl
    rw [hstep]
    exact ih acc

theorem processRef_refs_nojar (tid : String) (st : TagData) (ref : String) :
    (processRef [] tid st ref).1.tag_references = st.tag_references := by
  unfold processRef
  cases hz : st.tags_data.lookup ref with
  | some v =>
    dsimp only
    split
    · rfl
    · rfl
  | none =>
    cases hsp : pySplitOnce ':' ref with
    | none => rfl
    | some p =>
      obtain ⟨ns, path⟩ := p
      dsimp only
      rw [foldl_processCandidate_nil]

theorem resolvePassStep_refs_nojar (acc : TagData × Bool) (entry : String × Items) :
    (resolvePassStep [] acc entry).1.tag_references = acc.1.tag_references := by
  unfold resolvePassStep
  have hgen : ∀ (refs : List String) (acc2 : TagData × Bool),
      ((refs.foldl (fun acc2 ref =>
        let next := processRef [] entry.1 acc2.1 ref
        (next.1, acc2.2 || next.2)) acc2).1).tag_references = acc2.1.tag_references := by
    intro refs
    induction refs with
    | nil => intro acc2; rfl
    | cons r rest ih =>
      intro acc2
      rw [List.foldl_cons, ih]
      exact processRef_refs_nojar entry.1 acc2.1 r
  exact hgen entry.2 acc

theorem resolvePass_refs_nojar (st : TagData) :
    (resolvePass [] st).1.tag_references = st.tag_references := by
  unfold resolvePass
  have hgen : ∀ (entries : SMap) (acc : TagData × Bool),
      ((entries.foldl (resolvePassStep []) acc).1).tag_references = acc.1.tag_references := by
    intro entries
    induction entries with
    | nil => intro acc; rfl
    | cons e rest ih =>
      intro acc
      rw [List.foldl_cons, ih]
      exact resolvePassStep_refs_nojar acc e
  exact hgen st.tag_references (st, false)

/-- The `changed` flag is only ever raised, never cleared, within a pass. -/
theorem refsFold_flag_mono (zf : Jar) (tid : String) :
    ∀ (refs : List String) (acc : TagData × Bool), acc.2 = true →
    (refs.foldl (fun acc2 ref =>
      let next := processRef zf tid acc2.1 ref
      (next.1, acc2.2 || next.2)) acc).2 = true := by
  intro refs
  induction refs with
  | nil => intro acc h; exact h
  | cons r rest ih =>
    intro acc h
    rw [List.foldl_cons]
    exact ih _ (by simp [h])

theorem resolvePassStep_flag_mono (zf : Jar) (acc : TagData × Bool)
    (entry : String × Items) (h : acc.2 = true) :
    (resolvePassStep zf acc entry).2 = true := by
  unfold resolvePassStep
  exact refsFold_flag_mono zf entry.1 entry.2 acc h

theorem entriesFold_flag_mono (zf : Jar) :
    ∀ (entries : SMap) (acc : TagData × Bool), acc.2 = true →
    ((entries.foldl (resolvePassStep zf) acc).2) = true := by
  intro entries
  induction entries with
  | nil => intro acc h; exact h
  | cons e rest ih =>
    intro acc h
    rw [List.foldl_cons]
    exact ih _ (resolvePassStep_flag_mono zf acc e h)

/-- A reference step that reports no change leaves every item set exactly as
it was (at most empty `defaultdict` entries are created). -/
theorem processRef_false_items (tid : String) (st : TagData) (ref : String)
    (h : (processRef [] tid st ref).2 = false) (t : String) :
    mgetD t (processRef [] tid st ref).1.tags_data = mgetD t st.tags_data := by
  unfold processRef at h ⊢
  cases hz : st.tags_data.lookup ref with
  | some v =>
    dsimp only at h ⊢
    split
    · exact mgetD_mtouch t tid st.tags_data
    · next hcond =>
      rw [hz] at h
      dsimp only at h
      rw [if_neg hcond] at h
      simp at h
  | none =>
    dsimp only at h ⊢
    cases hsp : pySplitOnce ':' ref with
    | none => rfl
    | some p =>
      obtain ⟨ns, path⟩ := p
      dsimp only
      rw [foldl_processCandidate_nil]

theorem refsFold_false_items (tid : String) :
    ∀ (refs : List String) (acc : TagData × Bool),
    ((refs.foldl (fun acc2 ref =>
      let next := processRef [] tid acc2.1 ref
      (next.1, acc2.2 || next.2)) acc).2 = false) →
    (∀ t, mgetD t ((refs.foldl (fun acc2 ref =>
      let next := processRef [] tid acc2.1 ref
      (next.1, acc2.2 || next.2)) acc).1.tags_data) = mgetD t acc.1.tags_data)
      ∧ acc.2 = false := by
  intro refs
  induction refs with
  | nil => intro acc h; exact ⟨fun t => rfl, h⟩
  | cons r rest ih =>
    intro acc h
    rw [List.foldl_cons] at h ⊢
    obtain ⟨hrest, hacc1⟩ := ih _ h
    simp only at hacc1
    have hor := Bool.or_eq_false_iff.mp hacc1
    refine ⟨fun t => ?_, hor.1⟩
    exact (hrest t).trans (processRef_false_items tid acc.1 r hor.2 t)

theorem entriesFold_false_items :
    ∀ (entries : SMap) (acc : TagData × Bool),
    ((entries.foldl (resolvePassStep []) acc).2 = false) →
    (∀ t, mgetD t ((entries.foldl (resolvePassStep []) acc).1.tags_data)
      = mgetD t acc.1.tags_data) ∧ acc.2 = false := by
  intro entries
  induction entries with
  | nil => intro acc h; exact ⟨fun t => rfl, h⟩
  | cons e rest ih =>
    intro acc h
    rw [List.foldl_cons] at h ⊢
    obtain ⟨hrest, hstep⟩ := ih _ h
    obtain ⟨hone, hacc⟩ := refsFold_false_items e.1 e.2 acc hstep
    exact ⟨fun t => (hrest t).trans (hone t), hacc⟩

theorem resolvePass_false_items (st : TagData)
    (h : (resolvePass [] st).2 = false) (t : String) :
    mgetD t (resolvePass [] st).1.tags_data = mgetD t st.tags_data :=
  (entriesFold_false_items st.tag_references (st, false) h).1 t

/-- A reference step that reports no change witnesses that the referenced
tag's items were already contained in the referring tag's items. -/
theorem processRef_false_closed (tid : String) (stc : TagData) (r : String)
    (h : (processRef [] tid stc r).2 = false) :
    mgetD r stc.tags_data ⊆ mgetD tid stc.tags_data := by
  unfold processRef at h
  cases hz : stc.tags_data.lookup r with
  | some v =>
    rw [hz] at h
    dsimp only at h
    by_cases hcond : (setDiff v (mgetD tid stc.tags_data)).isEmpty = true
    · have hsub : v ⊆ mgetD tid stc.tags_data := setDiff_empty_subset hcond
      rw [lookup_eq_mgetD hz]
      exact hsub
    · rw [if_neg hcond] at h
      simp at h
  | none =>
    intro y hy
    unfold mgetD at hy
    rw [hz] at hy
    simp at hy

theorem refsFold_false_closed (tid : String) (base : TagData) :
    ∀ (refs : List String) (acc : TagData × Bool),
    (∀ u, mgetD u acc.1.tags_data = mgetD u base.tags_data) →
    ((refs.foldl (fun acc2 ref =>
      let next := processRef [] tid acc2.1 ref
      (next.1, acc2.2 || next.2)) acc).2 = false) →
    ∀ r ∈ refs, mgetD r base.tags_data ⊆ mgetD tid base.tags_data := by
  intro refs
  induction refs with
  | nil =>
    intro acc _ _ r hr
    exact absurd hr (List.not_mem_nil r)
  | cons r0 rest ih =>
    intro acc hbase h r hr
    rw [List.foldl_cons] at h
    have hstep2 : ((fun acc2 ref =>
        let next := processRef [] tid acc2.1 ref
        (next.1, acc2.2 || next.2)) acc r0).2 = false := by
      by_contra hc
      have htrue := refsFold_flag_mono [] tid rest _ (Bool.eq_true_of_not_eq_false hc)
      rw [htrue] at h
      exact Bool.noConfusion h
    have hnext : (processRef [] tid acc.1 r0).2 = false := by
      simp only at hstep2
      exact (Bool.or_eq_false_iff.mp hstep2).2
    rcases List.mem_cons.mp hr with rfl | hr'
    · have hcl := processRef_false_closed tid acc.1 r hnext
      rw [hbase r, hbase tid] at hcl
      exact hcl
    · have hbase' : ∀ u, mgetD u ((fun acc2 ref =>
          let next := processRef [] tid acc2.1 ref
          (next.1, acc2.2 || next.2)) acc r0).1.tags_data = mgetD u base.tags_data := by
        intro u
        simp only
        exact (processRef_false_items tid acc.1 r0 hnext u).trans (hbase u)
      exact ih _ hbase' h r hr'

theorem entriesFold_false_closed (base : TagData) :
    ∀ (entries : SMap) (acc : TagData × Bool),
    (∀ u, mgetD u acc.1.tags_data = mgetD u base.tags_data) →
    ((entries.foldl (resolvePassStep []) acc).2 = false) →
    ∀ e ∈ entries, ∀ r ∈ e.2, mgetD r base.tags_data ⊆ mgetD e.1 base.tags_data := by
  intro entries
  induction entries with
  | nil =>
    intro acc _ _ e he
    exact absurd he (List.not_mem_nil e)
  | cons e0 rest ih =>
    intro acc hbase h e he
    rw [List.foldl_cons] at h
    have hstepfalse : (resolvePassStep [] acc e0).2 = false := by
      by_contra hc
      have htrue := entriesFold_flag_mono [] rest _ (Bool.eq_true_of_not_eq_false hc)
      rw [htrue] at h
      exact Bool.noConfusion h
    rcases List.mem_cons.mp he with rfl | he'
    · exact refsFold_false_closed e.1 base e.2 acc hbase hstepfalse
    · have hbase' : ∀ u, mgetD u (resolvePassStep [] acc e0).1.tags_data
          = mgetD u base.tags_data := by
        intro u
        exact ((refsFold_false_items e0.1 e0.2 acc hstepfalse).1 u).trans (hbase u)
      exact ih _ hbase' h e he'

theorem resolvePass_false_closed (st : TagData)
    (h : (resolvePass [] st).2 = false) :
    ∀ e ∈ st.tag_references, ∀ r ∈ e.2,
      mgetD r st.tags_data ⊆ mgetD e.1 st.tags_data :=
  entriesFold_false_closed st st.tag_references (st, false) (fun _ => rfl) h

/-- Every item present after one reference step is justified by the initial
items along the reference graph. -/
theorem processRef_inv (st0 : TagData) (tid r : String) (stc : TagData)
    (hedge : Edge st0.tag_references tid r)
    (hinv : ∀ t x, x ∈ items stc t → ∃ s, Reach st0.tag_references t s ∧ x ∈ items st0 s) :
    ∀ t x, x ∈ items (processRef [] tid stc r).1 t →
      ∃ s, Reach st0.tag_references t s ∧ x ∈ items st0 s := by
  intro t x hx
  unfold processRef at hx
  cases hz : stc.tags_data.lookup r with
  | some v =>
    rw [hz] at hx
    dsimp only at hx
    by_cases hcond : (setDiff v (mgetD tid stc.tags_data)).isEmpty = true
    · rw [if_pos hcond] at hx
      have hx' : x ∈ items stc t := by
        unfold items at hx ⊢
        dsimp only at hx
        rwa [mgetD_mtouch] at hx
      exact hinv t x hx'
    · rw [if_neg hcond] at hx
      unfold items at hx
      dsimp only at hx
      rw [mgetD_mset] at hx
      by_cases ht : t = tid
      · rw [if_pos ht] at hx
        subst ht
        rcases setUnion_mem.mp hx with hold | hnew
        · exact hinv t x hold
        · have hv : x ∈ v := (setDiff_mem.mp hnew).1
          have hvr : x ∈ items stc r := by
            unfold items
            rw [lookup_eq_mgetD hz]
            exact hv
          obtain ⟨s, hr, hxs⟩ := hinv r x hvr
          exact ⟨s, Reach.step hedge hr, hxs⟩
      · rw [if_neg ht, mgetD_mtouch] at hx
        exact hinv t x hx
  | none =>
    rw [hz] at hx
    dsimp only at hx
    cases hsp : pySplitOnce ':' r with
    | none =>
      rw [hsp] at hx
      exact hinv t x hx
    | some p =>
      obtain ⟨ns, path⟩ := p
      rw [hsp] at hx
      dsimp only at hx
      rw [foldl_processCandidate_nil] at hx
      exact hinv t x hx

theorem refsFold_inv (st0 : TagData) (tid : String) :
    ∀ (refs : List String), (∀ r ∈ refs, Edge st0.tag_references tid r) →
    ∀ (acc : TagData × Bool),
    (∀ t x, x ∈ items acc.1 t → ∃ s, Reach st0.tag_references t s ∧ x ∈ items st0 s) →
    ∀ t x, x ∈ items ((refs.foldl (fun acc2 ref =>
      let next := processRef [] tid acc2.1 ref
      (next.1, acc2.2 || next.2)) acc).1) t →
      ∃ s, Reach st0.tag_references t s ∧ x ∈ items st0 s := by
  intro refs
  induction refs with
  | nil => intro _ acc hinv t x hx; exact hinv t x hx
  | cons r rest ih =>
    intro hedges acc hinv t x hx
    rw [List.foldl_cons] at hx
    refine ih (fun r' hr' => hedges r' (List.mem_cons_of_mem r hr')) _ ?_ t x hx
    intro t' x' hx'
    exact processRef_inv st0 tid r acc.1 (hedges r (List.mem_cons_self r rest)) hinv t' x' hx'

theorem entriesFold_inv (st0 : TagData) :
    ∀ (entries : SMap), (∀ e ∈ entries, ∀ r ∈ e.2, Edge st0.tag_references e.1 r) →
    ∀ (acc : TagData × Bool),
    (∀ t x, x ∈ items acc.1 t → ∃ s, Reach st0.tag_references t s ∧ x ∈ items st0 s) →
    ∀ t x, x ∈ items ((entries.foldl (resolvePassStep []) acc).1) t →
      ∃ s, Reach st0.tag_references t s ∧ x ∈ items st0 s := by
  intro entries
  induction entries with
  | nil => intro _ acc hinv t x hx; exact hinv t x hx
  | cons e rest ih =>
    intro hent acc hinv t x hx
    rw [List.foldl_cons] at hx
    refine ih (fun e' he' => hent e' (List.mem_cons_of_mem e he')) _ ?_ t x hx
    intro t' x' hx'
    exact refsFold_inv st0 e.1 e.2 (hent e (List.mem_cons_self e rest)) acc hinv t' x' hx'

theorem resolvePass_inv (st : TagData) :
    ∀ t x, x ∈ items (resolvePass [] st).1 t →
      ∃ s, Reach st.tag_references t s ∧ x ∈ items st s := by
  have hent : ∀ e ∈ st.tag_references, ∀ r ∈ e.2, Edge st.tag_references e.1 r := by
    intro e he r hr
    exact ⟨e.2, by simpa using he, hr⟩
  exact entriesFold_inv st st.tag_references hent (st, false)
    (fun t x hx => ⟨t, Reach.refl t, hx⟩)

theorem resolveLoop_mono (zf : Jar) : ∀ (fuel : Nat) (st : TagData) (t : String),
    items st t ⊆ items (resolveLoop zf fuel st).1 t := by
  intro fuel
  induction fuel with
  | zero => intro st t; exact List.Subset.refl _
  | succ f ih =>
    intro st t
    cases hp : resolvePass zf st with
    | mk st1 ch =>
      cases ch with
      | false =>
        simp only [resolveLoop, hp]
        have h1 := resolvePass_mono zf st t
        rw [hp] at h1
        exact h1
      | true =>
        cases hl : resolveLoop zf f st1 with
        | mk st2 rest =>
          obtain ⟨n, conv⟩ := rest
          simp only [resolveLoop, hp, hl]
          intro y hy
          have h1 := resolvePass_mono zf st t
          rw [hp] at h1
          have h2 := ih st1 t
          rw [hl] at h2
          exact h2 (h1 hy)

/-- With an empty JAR, a converged resolver run computes exactly the closure
of the initial item sets along the reference graph. -/
theorem resolveLoop_conv_items : ∀ (fuel : Nat) (st : TagData),
    (resolveLoop [] fuel st).2.2 = true →
    ∀ t x, x ∈ items (resolveLoop [] fuel st).1 t ↔
      ∃ s, Reach st.tag_references t s ∧ x ∈ items st s := by
  intro fuel
  induction fuel with
  | zero =>
    intro st h
    simp [resolveLoop] at h
  | succ f ih =>
    intro st h t x
    cases hp : resolvePass [] st with
    | mk st1 ch =>
      cases ch with
      | false =>
        have hfin : resolveLoop [] (f + 1) st = (st1, 1, true) := by
          simp only [resolveLoop, hp]
        rw [hfin]
        dsimp only
        have hflag : (resolvePass [] st).2 = false := by rw [hp]
        constructor
        · intro hx
          exact resolvePass_inv st t x (by rw [hp]; exact hx)
        · rintro ⟨s, hr, hx⟩
          have hcl := resolvePass_false_closed st hflag
          have hpres : ∀ u, mgetD u st1.tags_data = mgetD u st.tags_data := by
            intro u
            have hq := resolvePass_false_items st hflag u
            rw [hp] at hq
            exact hq
          have hsubset : ∀ a b, Reach st.tag_references a b →
              mgetD b st.tags_data ⊆ mgetD a st.tags_data := by
            intro a b hab
            induction hab with
            | refl => exact List.Subset.refl _
            | step he _ ihab =>
              obtain ⟨rs, hmem, hrin⟩ := he
              exact fun y hy => hcl _ hmem _ hrin (ihab hy)
          show x ∈ items st1 t
          unfold items
          rw [hpres t]
          exact hsubset t s hr hx
      | true =>
        cases hl : resolveLoop [] f st1 with
        | mk st2 rest =>
          obtain ⟨n, conv⟩ := rest
          have hfin : resolveLoop [] (f + 1) st = (st2, n + 1, conv) := by
            simp only [resolveLoop, hp, hl]
          rw [hfin] at h ⊢
          dsimp only at h ⊢
          have hinner := ih st1 (by rw [hl]; exact h) t x
          rw [hl] at hinner
          dsimp only at hinner
          have hrefs : st1.tag_references = st.tag_references := by
            have hq := resolvePass_refs_nojar st
            rw [hp] at hq
            exact hq
          rw [hinner]
          constructor
          · rintro ⟨s, hr1, hx1⟩
            have hr : Reach st.tag_references t s := by rwa [hrefs] at hr1
            obtain ⟨u, hru, hxu⟩ := resolvePass_inv st s x (by rw [hp]; exact hx1)
            exact ⟨u, hr.trans hru, hxu⟩
          · rintro ⟨s, hr, hx⟩
            have hx1 : x ∈ items st1 s := by
              have hm := resolvePass_mono [] st s
              rw [hp] at hm
              exact hm hx
            exact ⟨s, by rwa [← hrefs] at hr, hx1⟩

/-- C3 counterexample data: a 12-tag reference chain
`t1 → t2 → ⋯ → t12` whose only items sit at the far end. -/
def chainTags : SMap :=
  [("t1", []), ("t2", []), ("t3", []), ("t4", []), ("t5", []), ("t6", []),
   ("t7", []), ("t8", []), ("t9", []), ("t10", []), ("t11", []), ("t12", ["m:x"])]

def chainRefs : SMap :=
  [("t1", ["t2"]), ("t2", ["t3"]), ("t3", ["t4"]), ("t4", ["t5"]), ("t5", ["t6"]),
   ("t6", ["t7"]), ("t7", ["t8"]), ("t8", ["t9"]), ("t9", ["t10"]), ("t10", ["t11"]),
   ("t11", ["t12"])]

/-- The chain collection processed head-first (`t1` first). -/
def stOrderA : TagData :=
  { tags_data := chainTags
    tag_references := chainRefs
    tag_file_map := [] }

/-- The same collection processed tail-first (`t11` first). -/
def stOrderB : TagData :=
  { tags_data := chainTags
    tag_references := chainRefs.reverse
    tag_file_map := [] }

/-- C3 counterexample data for the JAR-loading side: a JAR holding tag files
for `nsr:c1/m1` (referencing `nss:c2/m2`), `nss:c2/m2` (referencing
`nsu:c3/m3`) and `nsu:c3/m3` (with a fresh item `m:y`). -/
def jarC : Jar := [
  ("data/nsr/tags/items/c1/m1.json",
    Json.obj [("values", Json.arr [Json.str "m:x", Json.str "#nss:c2/m2"])]),
  ("data/nss/tags/items/c2/m2.json",
    Json.obj [("values", Json.arr [Json.str "m:x", Json.str "#nsu:c3/m3"])]),
  ("data/nsu/tags/items/c3/m3.json",
    Json.obj [("values", Json.arr [Json.str "m:y"])])]

/-- Tag `a` references known tag `k` and JAR-resident tag `nsr:c1/m1`; tag
`b` references `a`; processed `a` first. -/
def stOrderC : TagData :=
  { tags_data := [("k", ["n:v"]), ("a", ["m:x"]), ("b", ["m:x"])]
    tag_references := [("a", ["k", "nsr:c1/m1"]), ("b", ["a"])]
    tag_file_map := [] }

/-- The same collection as `stOrderC`, processed `b` first. -/
def stOrderD : TagData :=
  { tags_data := [("k", ["n:v"]), ("a", ["m:x"]), ("b", ["m:x"])]
    tag_references := [("b", ["a"]), ("a", ["k", "nsr:c1/m1"])]
    tag_file_map := [] }

/-- C3 (counterexample): the order of tag processing within a pass *does*
affect the final item sets, in two ways.  (1) Iteration cap: on a 12-tag
chain, tail-first order converges in 2 passes and gives `t1` the item `m:x`,
while head-first order propagates one link per pass, is cut off by the
10-pass cap, and leaves `t1` empty.  (2) On-demand JAR loading: on
`stOrderC`/`stOrderD` — the same collection in two orders, and the same JAR —
both runs stop because a pass made no change, yet the final item set of the
loaded tag `nss:c2/m2` is `{m:x}` in one order and `{m:x, m:y}` in the
other, because one order loads a referenced tag file during its final,
"unchanged" pass and never chases the references discovered there. -/
theorem C3_order_dependence_cex :
    stOrderA.tags_data = stOrderB.tags_data ∧
    stOrderA.tag_references.Perm stOrderB.tag_references ∧
    items (resolve_references [] stOrderA).1 "t1" = [] ∧
    items (resolve_references [] stOrderB).1 "t1" = ["m:x"] ∧
    stOrderC.tags_data = stOrderD.tags_data ∧
    stOrderC.tag_references.Perm stOrderD.tag_references ∧
    (resolve_references jarC stOrderC).2.2 = true ∧
    (resolve_references jarC stOrderD).2.2 = true ∧
    items (resolve_references jarC stOrderC).1 "nss:c2/m2" = ["m:x"] ∧
    items (resolve_references jarC stOrderD).1 "nss:c2/m2" = ["m:x", "m:y"] := by
  refine ⟨rfl, by decide, by decide, by decide, rfl, by decide, by decide, by decide,
    by decide, by decide⟩

/-- C3 (amended): for collections whose references never trigger on-demand
JAR loading (empty JAR) and whose resolution stops because a pass made no
change (within any iteration caps), the final per-tag item sets are the same
for every order of tag processing within a pass: two starting states with the
same item sets and the same reference edges — in any list order — converge
to identical item sets for every tag.  When the iteration cap cuts
resolution short, or when referenced tag files are loaded from the JAR
mid-resolution, the processing order can change the result (see the
counterexample). -/
theorem C3_converged_nojar_order_independent
    (stA stB : TagData) (fuelA fuelB : Nat)
    (hitems : ∀ t x, x ∈ items stA t ↔ x ∈ items stB t)
    (hedges : ∀ a b, Edge stA.tag_references a b ↔ Edge stB.tag_references a b)
    (hA : (resolveLoop [] fuelA stA).2.2 = true)
    (hB : (resolveLoop [] fuelB stB).2.2 = true) :
    ∀ t x, x ∈ items (resolveLoop [] fuelA stA).1 t ↔
      x ∈ items (resolveLoop [] fuelB stB).1 t := by
  intro t x
  rw [resolveLoop_conv_items fuelA stA hA t x, resolveLoop_conv_items fuelB stB hB t x]
  constructor
  · rintro ⟨s, hr, hx⟩
    exact ⟨s, Reach.of_edges_mono (fun a b => (hedges a b).mp) hr, (hitems s x).mp hx⟩
  · rintro ⟨s, hr, hx⟩
    exact ⟨s, Reach.of_edges_mono (fun a b => (hedges a b).mpr) hr, (hitems s x).mpr hx⟩

/-- A two-entry collection for the C3 witness, in two processing orders. -/
def stW1 : TagData :=
  { tags_data := [("a", ["m:x"]), ("b", [])]
    tag_references := [("b", ["a"]), ("c", [])]
    tag_file_map := [] }

def stW2 : TagData :=
  { tags_data := [("a", ["m:x"]), ("b", [])]
    tag_references := [("c", []), ("b", ["a"])]
    tag_file_map := [] }

/-- C3 witness: the amended theorem applied to the concrete collection
`stW1`/`stW2` (same items and edges, two orders, both converging with the
default cap of 10). -/
theorem C3_order_independent_witness :
    (resolveLoop [] 10 stW1).2.2 = true ∧
    (resolveLoop [] 10 stW2).2.2 = true ∧
    ∀ t x, x ∈ items (resolveLoop [] 10 stW1).1 t ↔
      x ∈ items (resolveLoop [] 10 stW2).1 t := by
  have hedges : ∀ a b, Edge stW1.tag_references a b ↔ Edge stW2.tag_references a b := by
    intro a b
    constructor
    · rintro ⟨rs, hmem, hrin⟩
      refine ⟨rs, ?_, hrin⟩
      simp only [stW1, List.mem_cons, List.not_mem_nil, or_false] at hmem
      simp only [stW2, List.mem_cons, List.not_mem_nil, or_false]
      tauto
    · rintro ⟨rs, hmem, hrin⟩
      refine ⟨rs, ?_, hrin⟩
      simp only [stW2, List.mem_cons, List.not_mem_nil, or_false] at hmem
      simp only [stW1, List.mem_cons, List.not_mem_nil, or_false]
      tauto
  exact ⟨by decide, by decide,
    C3_converged_nojar_order_independent stW1 stW2 10 10 (fun t x => Iff.rfl) hedges
      (by decide) (by decide)⟩

/-! ## Core-scanner tag value extraction (`core/scanner/tags.py`)

`extract_tag_value` recursively flattens one entry of a tag's `values`
array into a list of strings, marking tag references with a leading `#` but
returning them *in the same list* as direct items.  The recursion depth is
bounded by a fuel parameter standing in for Python's recursion limit; all
realistic tag files are a few levels deep.  Non-string `id`/`item`/`tag`
payloads (which Python would stringify on write) are not modelled. -/

def extract_tag_value_list (etv : Json → List String) (xs : List Json) : List String :=
  xs.foldl (fun acc v => acc ++ etv v) []

def extract_tag_value_fuel : Nat → Json → List String
  | 0, _ => []
  | fuel + 1, v =>
    match v with
    | Json.str s => [s]
    | Json.obj fields =>
      (match fields.lookup "id" with
       | some (Json.str s) => [s]
       | _ => []) ++
      (match fields.lookup "item" with
       | some (Json.str s) => [s]
       | _ => []) ++
      (match fields.lookup "tag" with
       | some (Json.str s) => [String.mk ('#' :: s.data)]
       | _ => []) ++
      (match fields.lookup "values" with
       | some (Json.arr xs) => extract_tag_value_list (extract_tag_value_fuel fuel) xs
       | _ => [])
    | Json.arr xs => extract_tag_value_list (extract_tag_value_fuel fuel) xs
    | _ => []

/-- `extract_tag_value(val)` with a recursion budget of Python's default
recursion limit. -/
def extract_tag_value (v : Json) : List String :=
  extract_tag_value_fuel 1000 v

/-- The `tag_items` set accumulated in `discover_and_save_tags_incremental`
for one tag file: every truthy extracted string — direct items *and*
`#`-marked references alike — is added to the single per-tag set. -/
def tag_items_of_values (values : List Json) : Items :=
  values.foldl (fun acc value =>
    (extract_tag_value value).foldl
      (fun acc2 item => if item ≠ "" then setInsert acc2 item else acc2) acc) []

/-! ### Extraction characterization (claim C6) -/

theorem extract_fold_items_mem (x : String) : ∀ (vs : List Json) (accI accR : Items),
    x ∈ (vs.foldl tagValueStep (accI, accR)).1 ↔
      x ∈ accI ∨ (Json.str x ∈ vs ∧ pyStarts '#' x = false ∧ pyContains ':' x = true) := by
  intro vs
  induction vs with
  | nil => simp
  | cons v rest ih =>
    intro accI accR
    rw [List.foldl_cons]
    cases v with
    | str s =>
      by_cases hsh : pyStarts '#' s = true
      · have hstepref : (tagValueStep (accI, accR) (Json.str s)).1 = accI := by
          simp only [tagValueStep, hsh, if_pos]
          split
          · rfl
          · rfl
        have hsteppair : tagValueStep (accI, accR) (Json.str s)
            = ((tagValueStep (accI, accR) (Json.str s)).1,
               (tagValueStep (accI, accR) (Json.str s)).2) := Prod.mk.eta.symm
        rw [hstepref] at hsteppair
        rw [hsteppair, ih]
        simp only [List.mem_cons, Json.str.injEq]
        constructor
        · rintro (h | ⟨hv, h1, h2⟩)
          · exact Or.inl h
          · exact Or.inr ⟨Or.inr hv, h1, h2⟩
        · rintro (h | ⟨hv | hv, h1, h2⟩)
          · exact Or.inl h
          · rw [← hv] at hsh
            rw [hsh] at h1
            exact absurd h1 (by simp)
          · exact Or.inr ⟨hv, h1, h2⟩
      · have hsh' : pyStarts '#' s = false := by
          cases hq : pyStarts '#' s with
          | true => exact absurd hq hsh
          | false => rfl
        by_cases hsc : pyContains ':' s = true
        · have hstep : tagValueStep (accI, accR) (Json.str s) = (setInsert accI s, accR) := by
            simp [tagValueStep, hsh', hsc]
          rw [hstep, ih]
          simp only [List.mem_cons, Json.str.injEq, setInsert_mem]
          constructor
          · rintro ((h | h) | ⟨hv, h1, h2⟩)
            · exact Or.inl h
            · subst h
              exact Or.inr ⟨Or.inl rfl, hsh', hsc⟩
            · exact Or.inr ⟨Or.inr hv, h1, h2⟩
          · rintro (h | ⟨hv | hv, h1, h2⟩)
            · exact Or.inl (Or.inl h)
            · exact Or.inl (Or.inr hv)
            · exact Or.inr ⟨hv, h1, h2⟩
        · have hstep : tagValueStep (accI, accR) (Json.str s) = (accI, accR) := by
            simp [tagValueStep, hsh', hsc]
          rw [hstep, ih]
          simp only [List.mem_cons, Json.str.injEq]
          constructor
          · rintro (h | ⟨hv, h1, h2⟩)
            · exact Or.inl h
            · exact Or.inr ⟨Or.inr hv, h1, h2⟩
          · rintro (h | ⟨hv | hv, h1, h2⟩)
            · exact Or.inl h
            · rw [← hv] at hsc
              exact absurd h2 hsc
            · exact Or.inr ⟨hv, h1, h2⟩
    | null =>
      rw [show tagValueStep (accI, accR) Json.null = (accI, accR) from rfl, ih]
      simp
    | bool b =>
      rw [show tagValueStep (accI, accR) (Json.bool b) = (accI, accR) from rfl, ih]
      simp
    | num n =>
      rw [show tagValueStep (accI, accR) (Json.num n) = (accI, accR) from rfl, ih]
      simp
    | arr xs =>
      rw [show tagValueStep (accI, accR) (Json.arr xs) = (accI, accR) from rfl, ih]
      simp
    | obj fs =>
      rw [show tagValueStep (accI, accR) (Json.obj fs) = (accI, accR) from rfl, ih]
      simp

theorem extract_fold_refs_mem (r : String) : ∀ (vs : List Json) (accI accR : Items),
    r ∈ (vs.foldl tagValueStep (accI, accR)).2 ↔
      r ∈ accR ∨ (Json.str (String.mk ('#' :: r.data)) ∈ vs ∧ pyContains '/' r = true) := by
  intro vs
  induction vs with
  | nil => simp
  | cons v rest ih =>
    intro accI accR
    rw [List.foldl_cons]
    cases v with
    | str s =>
      by_cases hsh : pyStarts '#' s = true
      · obtain ⟨c, cs, hdata⟩ : ∃ c cs, s.data = c :: cs := by
          cases hsd : s.data with
          | nil =>
            exfalso
            unfold pyStarts at hsh
            rw [hsd] at hsh
            exact Bool.noConfusion hsh
          | cons c cs => exact ⟨c, cs, rfl⟩
        have hc : c = '#' := by
          unfold pyStarts at hsh
          rw [hdata] at hsh
          exact eq_of_beq hsh
        have hone : String.mk (s.data.drop 1) = String.mk cs := by simp [hdata]
        have hsmk : s = String.mk ('#' :: cs) := by
          cases s with
          | mk d =>
            have hd : d = c :: cs := hdata
            rw [hd, hc]
        by_cases hsl : pyContains '/' (String.mk (s.data.drop 1)) = true
        · have hstep : tagValueStep (accI, accR) (Json.str s)
              = (accI, setInsert accR (String.mk (s.data.drop 1))) := by
            simp only [tagValueStep]
            rw [if_pos hsh, if_pos hsl]
          rw [hstep, ih]
          simp only [List.mem_cons, Json.str.injEq, setInsert_mem]
          constructor
          · rintro ((h | h) | ⟨hv, h2⟩)
            · exact Or.inl h
            · refine Or.inr ⟨Or.inl ?_, ?_⟩
              · rw [h, hone, hsmk]
              · rw [h, hone]
                rw [hone] at hsl
                exact hsl
            · exact Or.inr ⟨Or.inr hv, h2⟩
          · rintro (h | ⟨hv | hv, h2⟩)
            · exact Or.inl (Or.inl h)
            · refine Or.inl (Or.inr ?_)
              rw [hone]
              have hdd : ('#' :: r.data) = ('#' :: cs) :=
                congrArg String.data (hv.trans hsmk)
              have hrcs : r.data = cs := by injection hdd
              cases r with
              | mk d =>
                have hd : d = cs := hrcs
                rw [hd]
            · exact Or.inr ⟨hv, h2⟩
        · have hstep : tagValueStep (accI, accR) (Json.str s) = (accI, accR) := by
            simp only [tagValueStep]
            rw [if_pos hsh, if_neg hsl]
          rw [hstep, ih]
          simp only [List.mem_cons, Json.str.injEq]
          constructor
          · rintro (h | ⟨hv, h2⟩)
            · exact Or.inl h
            · exact Or.inr ⟨Or.inr hv, h2⟩
          · rintro (h | ⟨hv | hv, h2⟩)
            · exact Or.inl h
            · exfalso
              apply hsl
              have hs : s = String.mk ('#' :: r.data) := hv.symm
              rw [hs]
              show pyContains '/' (String.mk (('#' :: r.data).drop 1)) = true
              exact h2
            · exact Or.inr ⟨hv, h2⟩
      · have hsh' : pyStarts '#' s = false := by
          cases hq : pyStarts '#' s with
          | true => exact absurd hq hsh
          | false => rfl
        have hstepref : (tagValueStep (accI, accR) (Json.str s)).2 = accR := by
          simp only [tagValueStep, hsh']
          split
          · next h => exact Bool.noConfusion h
          · split
            · rfl
            · rfl
        have hsteppair : tagValueStep (accI, accR) (Json.str s)
            = ((tagValueStep (accI, accR) (Json.str s)).1,
               (tagValueStep (accI, accR) (Json.str s)).2) := Prod.mk.eta.symm
        rw [hstepref] at hsteppair
        rw [hsteppair, ih]
        simp only [List.mem_cons, Json.str.injEq]
        constructor
        · rintro (h | ⟨hv, h2⟩)
          · exact Or.inl h
          · exact Or.inr ⟨Or.inr hv, h2⟩
        · rintro (h | ⟨hv | hv, h2⟩)
          · exact Or.inl h
          · exfalso
            rw [← hv] at hsh'
            unfold pyStarts at hsh'
            simp at hsh'
          · exact Or.inr ⟨hv, h2⟩
    | null =>
      rw [show tagValueStep (accI, accR) Json.null = (accI, accR) from rfl, ih]
      simp
    | bool b =>
      rw [show tagValueStep (accI, accR) (Json.bool b) = (accI, accR) from rfl, ih]
      simp
    | num n =>
      rw [show tagValueStep (accI, accR) (Json.num n) = (accI, accR) from rfl, ih]
      simp
    | arr xs =>
      rw [show tagValueStep (accI, accR) (Json.arr xs) = (accI, accR) from rfl, ih]
      simp
    | obj fs =>
      rw [show tagValueStep (accI, accR) (Json.obj fs) = (accI, accR) from rfl, ih]
      simp

/-- C6 (counterexample): extraction does *not* put every `#`-prefixed value
into the tag-reference set, and the incremental core scanner does not keep
items and references in two distinct sets at all.  The `#`-prefixed value
`#minecraft:armor` (no `/` after the `#` is removed) is dropped by
`extract_from_tag_file` — it lands in neither set — and the core scanner's
`extract_tag_value` returns direct items and `#`-marked references in one
combined list, which `discover_and_save_tags_incremental` accumulates into
the single `tag_items` set. -/
theorem C6_extraction_cex :
    pyStarts '#' "#minecraft:armor" = true ∧
    extract_from_tag_file (Json.obj [("values", Json.arr [Json.str "#minecraft:armor"])])
      = ([], []) ∧
    extract_tag_value (Json.obj [("tag", Json.str "c:ingots/iron")])
      = ["#c:ingots/iron"] ∧
    tag_items_of_values
        [Json.str "minecraft:iron_ingot", Json.obj [("tag", Json.str "c:ingots/iron")]]
      = ["minecraft:iron_ingot", "#c:ingots/iron"] := by
  refine ⟨by decide, by decide, by decide, by decide⟩

/-- C6 (amended): for a tag JSON object with a `values` array, the
`TagExtractor` places a string value in the item set exactly when it does
not start with `#` and contains `:`, and places a string value `#r` in the
separate reference set (with the `#` removed) exactly when `r` contains
`/`; `#`-values without `/` and plain values without `:` are dropped.  The
two sets are distinct components of the result and are not merged by this
extractor.  (The incremental core scanner's `extract_tag_value` instead
returns one combined list in which references carry a `#` marker — see the
counterexample.) -/
theorem C6_extraction_characterization :
    (∀ (vs : List Json) (x : String),
      x ∈ (extract_from_tag_file (Json.obj [("values", Json.arr vs)])).1 ↔
        (Json.str x ∈ vs ∧ pyStarts '#' x = false ∧ pyContains ':' x = true)) ∧
    (∀ (vs : List Json) (r : String),
      r ∈ (extract_from_tag_file (Json.obj [("values", Json.arr vs)])).2 ↔
        (Json.str (String.mk ('#' :: r.data)) ∈ vs ∧ pyContains '/' r = true)) := by
  constructor
  · intro vs x
    have hun : extract_from_tag_file (Json.obj [("values", Json.arr vs)])
        = vs.foldl tagValueStep ([], []) := rfl
    rw [hun, extract_fold_items_mem]
    simp
  · intro vs r
    have hun : extract_from_tag_file (Json.obj [("values", Json.arr vs)])
        = vs.foldl tagValueStep ([], []) := rfl
    rw [hun, extract_fold_refs_mem]
    simp

/-! ## Filename sanitisation (`core/utils/item.py`) -/

/-- `sanitize_filename(name)`:
`name.replace(':', '_').replace('/', '_').replace('#', 'tag_')`. -/
def sanitize_filename (name : String) : String :=
  pyReplaceChar '#' "tag_" (pyReplaceChar '/' "_" (pyReplaceChar ':' "_" name))

/-- Path of the per-tag output file written by
`discover_and_save_tags_incremental`
(`tag_type_dirs[tag_type] / f"{safe_tag_name}.txt"`). -/
def tag_file_path (tag_type full_tag_name : String) : String :=
  "tags/" ++ tag_type ++ "/" ++ sanitize_filename full_tag_name ++ ".txt"

/-- The per-tag output file is opened with `open(tag_file, 'w', ...)`. -/
def tag_file_mode : Char := 'w'

/-! ## Batched output writer (`core/scanner/tags.py`)

`discover_and_save_tags_incremental` walks the mods in batches of
`BATCH_SIZE`, extracts the tag files of each mod, writes one per-tag file
(mode `'w'`), and appends `item → tags` lines through a cache of open
append-mode handles keyed by `(sanitized item name, installed?)`.  The model
keeps the open-handle cache as the list of its keys, the cross-batch
deduplication set as a flat list of `(key, entry)` pairs, a ghost list of the
distinct keys written in the current batch, and event logs recording the mode
of every `open` call.  The JAR walking and path parsing that *produce* the
tag records are not re-modelled here; a mod is abstracted as its list of tag
file records, which is the only part the writer claims depend on. -/

def BATCH_SIZE : Nat := 64

/-- Insert into a duplicate-free list (Python `set.add`). -/
def insertOnce {κ : Type} [DecidableEq κ] (l : List κ) (x : κ) : List κ :=
  if x ∈ l then l else l ++ [x]

theorem insertOnce_mem {κ : Type} [DecidableEq κ] {l : List κ} {x y : κ} :
    y ∈ insertOnce l x ↔ y ∈ l ∨ y = x := by
  unfold insertOnce
  by_cases h : x ∈ l
  · rw [if_pos h]
    constructor
    · exact Or.inl
    · rintro (hy | rfl)
      · exact hy
      · exact h
  · rw [if_neg h]
    simp [List.mem_append]

/-- One tag definition file found inside a mod's JAR: its tag type
(`items`/`blocks`/…), namespace, tag name and parsed `values` array. -/
structure TagFileRec where
  tag_type : String
  ns : String
  tag_name : String
  values : List Json

/-- `_extract_namespace_from_item(item)`. -/
def _extract_namespace_from_item (item : String) : Option String :=
  match pySplitOnce ':' item with
  | some (ns2, _) => some ns2
  | none => none

/-- `_is_namespace_installed(namespace, mods, namespace_to_mod_map)`. -/
def _is_namespace_installed (ns : String) (mods : List (String × String))
    (nsToMod : List (String × String)) : Bool :=
  if (mods.lookup ns).isSome then true
  else
    match nsToMod.lookup ns with
    | some modId =>
      if modId ≠ "" then decide (modId = ns) && (mods.lookup modId).isSome
      else false
    | none => false

/-- The writer's mutable state: open cached handles (by key), the
cross-batch dedup set, the ghost list of keys written in the current batch,
and event logs of every `open` call's mode. -/
structure WriterState where
  item_to_tags_files : List (String × Bool)
  item_to_tags_written : List ((String × Bool) × String)
  touched : List (String × Bool)
  open_events : List ((String × Bool) × Char)
  tag_file_events : List (String × Char)

def writer_init : WriterState :=
  { item_to_tags_files := []
    item_to_tags_written := []
    touched := []
    open_events := []
    tag_file_events := [] }

/-- One `item → tags` write (`core/scanner/tags.py` lines 205–213): skip when
the entry was already written for this key; otherwise open the key's file in
append mode if it is not cached, write, and record the entry. -/
def writeItemTag (key : String × Bool) (tag_entry : String) (st : WriterState) :
    WriterState :=
  if (key, tag_entry) ∈ st.item_to_tags_written then st
  else if key ∈ st.item_to_tags_files then
    { st with item_to_tags_written := st.item_to_tags_written ++ [(key, tag_entry)]
              touched := insertOnce st.touched key }
  else
    { st with item_to_tags_files := st.item_to_tags_files ++ [key]
              open_events := st.open_events ++ [(key, 'a')]
              item_to_tags_written := st.item_to_tags_written ++ [(key, tag_entry)]
              touched := insertOnce st.touched key }

/-- The `(safe_item_name, item_is_installed)` composite key of one item. -/
def item_key_of (mods nsToMod : List (String × String)) (clean_item : String) :
    String × Bool :=
  (sanitize_filename clean_item,
   match _extract_namespace_from_item clean_item with
   | some ns2 => _is_namespace_installed ns2 mods nsToMod
   | none => false)

/-- Body of `for item in tag_items` (`core/scanner/tags.py` lines 192–213):
strip leading `#`s, skip falsy items, and do one cached append-write. -/
def record_write_step (mods nsToMod : List (String × String)) (tag_entry : String)
    (st2 : WriterState) (item : String) : WriterState :=
  if pyLstrip '#' item ≠ "" then
    writeItemTag (item_key_of mods nsToMod (pyLstrip '#' item)) tag_entry st2
  else st2

/-- Processing of one tag file record: write the per-tag file (mode `'w'`),
accumulate `tag_items` (via `extract_tag_value`), and do one cached
append-write per truthy item. -/
def process_tag_record (mods nsToMod : List (String × String))
    (rec : TagFileRec) (st : WriterState) : WriterState :=
  (tag_items_of_values rec.values).foldl
    (record_write_step mods nsToMod (rec.tag_type ++ ": " ++ (rec.ns ++ ":" ++ rec.tag_name)))
    { st with tag_file_events := st.tag_file_events ++
        [(tag_file_path rec.tag_type (rec.ns ++ ":" ++ rec.tag_name), tag_file_mode)] }

def process_mod (mods nsToMod : List (String × String)) (st : WriterState)
    (m : String × List TagFileRec) : WriterState :=
  m.2.foldl (fun st2 rec => process_tag_record mods nsToMod rec st2) st

/-- The per-batch epilogue (`core/scanner/tags.py` lines 223–231): flush and
close every cached handle and clear the cache; `item_to_tags_written` is
deliberately kept.  The ghost `touched` list starts afresh with the next
batch. -/
def batch_end (st : WriterState) : WriterState :=
  { st with item_to_tags_files := [], touched := [] }

def process_batch (mods nsToMod : List (String × String)) (st : WriterState)
    (batch : List (String × List TagFileRec)) : WriterState :=
  batch_end (batch.foldl (process_mod mods nsToMod) st)

/-- `range(0, total, BATCH_SIZE)` slicing. -/
def chunksOfAux {α : Type} (n : Nat) : List α → Nat → List (List α)
  | [], _ => []
  | xs, 0 => [xs]
  | xs, fuel + 1 => xs.take n :: chunksOfAux n (xs.drop n) fuel

def chunksOf {α : Type} (n : Nat) (xs : List α) : List (List α) :=
  chunksOfAux n xs xs.length

/-- `discover_and_save_tags_incremental`, reduced to its writer behaviour:
process the mods in batches of 64, closing and clearing the handle cache at
every batch boundary. -/
def run_tag_discovery (mods nsToMod : List (String × String))
    (modsList : List (String × List TagFileRec)) : WriterState :=
  (chunksOf BATCH_SIZE modsList).foldl (process_batch mods nsToMod) writer_init

/-- The descriptor invariant: the cached handle keys are distinct and every
one of them was written (touched) in the current batch. -/
def WriterInv (st : WriterState) : Prop :=
  st.item_to_tags_files.Nodup ∧ ∀ k ∈ st.item_to_tags_files, k ∈ st.touched

instance (st : WriterState) : Decidable (WriterInv st) := by
  unfold WriterInv
  infer_instance

theorem nodup_subset_length_le {κ : Type} [DecidableEq κ] {l1 l2 : List κ}
    (h1 : l1.Nodup) (hsub : ∀ k ∈ l1, k ∈ l2) : l1.length ≤ l2.length := by
  calc l1.length = l1.toFinset.card := (List.toFinset_card_of_nodup h1).symm
    _ ≤ l2.toFinset.card := by
        apply Finset.card_le_card
        intro a ha
        rw [List.mem_toFinset] at ha ⊢
        exact hsub a ha
    _ ≤ l2.length := l2.toFinset_card_le

theorem writeItemTag_inv (key : String × Bool) (tag_entry : String)
    (st : WriterState) (h : WriterInv st) : WriterInv (writeItemTag key tag_entry st) := by
  obtain ⟨hnd, hsub⟩ := h
  unfold writeItemTag
  by_cases hdup : (key, tag_entry) ∈ st.item_to_tags_written
  · rw [if_pos hdup]
    exact ⟨hnd, hsub⟩
  · rw [if_neg hdup]
    by_cases hopen : key ∈ st.item_to_tags_files
    · rw [if_pos hopen]
      refine ⟨hnd, fun k hk => ?_⟩
      rw [insertOnce_mem]
      exact Or.inl (hsub k hk)
    · rw [if_neg hopen]
      constructor
      · show (st.item_to_tags_files ++ [key]).Nodup
        rw [List.nodup_append]
        exact ⟨hnd, List.nodup_singleton key,
          fun a ha hb => by rw [List.mem_singleton] at hb; subst hb; exact hopen ha⟩
      · intro k hk
        rw [insertOnce_mem]
        rcases List.mem_append.mp hk with hk1 | hk1
        · exact Or.inl (hsub k hk1)
        · rw [List.mem_singleton] at hk1
          exact Or.inr hk1

theorem record_write_step_inv (mods nsToMod : List (String × String))
    (tag_entry : String) (st : WriterState) (item : String) (h : WriterInv st) :
    WriterInv (record_write_step mods nsToMod tag_entry st item) := by
  unfold record_write_step
  split
  · exact writeItemTag_inv _ _ _ h
  · exact h

theorem process_tag_record_inv (mods nsToMod : List (String × String))
    (rec : TagFileRec) (st : WriterState) (h : WriterInv st) :
    WriterInv (process_tag_record mods nsToMod rec st) := by
  unfold process_tag_record
  have hgen : ∀ (itemsList : List String) (st0 : WriterState), WriterInv st0 →
      WriterInv (itemsList.foldl
        (record_write_step mods nsToMod
          (rec.tag_type ++ ": " ++ (rec.ns ++ ":" ++ rec.tag_name))) st0) := by
    intro itemsList
    induction itemsList with
    | nil => intro st0 h0; exact h0
    | cons it rest ih =>
      intro st0 h0
      rw [List.foldl_cons]
      exact ih _ (record_write_step_inv _ _ _ _ _ h0)
  exact hgen _ _ h

theorem process_mod_inv (mods nsToMod : List (String × String))
    (m : String × List TagFileRec) (st : WriterState) (h : WriterInv st) :
    WriterInv (process_mod mods nsToMod st m) := by
  unfold process_mod
  induction m.2 generalizing st with
  | nil => exact h
  | cons rec rest ih =>
    rw [List.foldl_cons]
    exact ih _ (process_tag_record_inv mods nsToMod rec st h)

theorem batch_end_clears (st : WriterState) :
    (batch_end st).item_to_tags_files = [] ∧ (batch_end st).touched = [] ∧
    WriterInv (batch_end st) := by
  refine ⟨rfl, rfl, List.nodup_nil, ?_⟩
  intro k hk
  exact absurd hk (List.not_mem_nil k)

theorem process_batch_inv (mods nsToMod : List (String × String))
    (batch : List (String × List TagFileRec)) (st : WriterState) (_h : WriterInv st) :
    WriterInv (process_batch mods nsToMod st batch) := by
  unfold process_batch
  exact (batch_end_clears _).2.2

theorem run_tag_discovery_inv (mods nsToMod : List (String × String))
    (modsList : List (String × List TagFileRec)) :
    WriterInv (run_tag_discovery mods nsToMod modsList) := by
  unfold run_tag_discovery
  have hgen : ∀ (bs : List (List (String × List TagFileRec))) (st : WriterState),
      WriterInv st → WriterInv (bs.foldl (process_batch mods nsToMod) st) := by
    intro bs
    induction bs with
    | nil => intro st h; exact h
    | cons b rest ih =>
      intro st h
      rw [List.foldl_cons]
      exact ih _ (process_batch_inv mods nsToMod b st h)
  exact hgen _ writer_init ⟨List.nodup_nil, fun k hk => absurd hk (List.not_mem_nil k)⟩

theorem writeItemTag_open_events (key : String × Bool) (tag_entry : String)
    (st : WriterState) (h : ∀ e ∈ st.open_events, e.2 = 'a') :
    ∀ e ∈ (writeItemTag key tag_entry st).open_events, e.2 = 'a' := by
  unfold writeItemTag
  by_cases hdup : (key, tag_entry) ∈ st.item_to_tags_written
  · rw [if_pos hdup]
    exact h
  · rw [if_neg hdup]
    by_cases hopen : key ∈ st.item_to_tags_files
    · rw [if_pos hopen]
      exact h
    · rw [if_neg hopen]
      intro e he
      rcases List.mem_append.mp he with he1 | he1
      · exact h e he1
      · rw [List.mem_singleton] at he1
        subst he1
        rfl

theorem process_tag_record_open_events (mods nsToMod : List (String × String))
    (rec : TagFileRec) (st : WriterState) (h : ∀ e ∈ st.open_events, e.2 = 'a') :
    ∀ e ∈ (process_tag_record mods nsToMod rec st).open_events, e.2 = 'a' := by
  unfold process_tag_record
  have hgen : ∀ (itemsList : List String) (st0 : WriterState),
      (∀ e ∈ st0.open_events, e.2 = 'a') →
      ∀ e ∈ (itemsList.foldl
        (record_write_step mods nsToMod
          (rec.tag_type ++ ": " ++ (rec.ns ++ ":" ++ rec.tag_name))) st0).open_events,
        e.2 = 'a' := by
    intro itemsList
    induction itemsList with
    | nil => intro st0 h0; exact h0
    | cons it rest ih =>
      intro st0 h0
      rw [List.foldl_cons]
      apply ih
      unfold record_write_step
      split
      · exact writeItemTag_open_events _ _ _ h0
      · exact h0
  exact hgen _ _ h

theorem run_tag_discovery_open_events (mods nsToMod : List (String × String))
    (modsList : List (String × List TagFileRec)) :
    ∀ e ∈ (run_tag_discovery mods nsToMod modsList).open_events, e.2 = 'a' := by
  unfold run_tag_discovery
  have hmod : ∀ (m : String × List TagFileRec) (st : WriterState),
      (∀ e ∈ st.open_events, e.2 = 'a') →
      ∀ e ∈ (process_mod mods nsToMod st m).open_events, e.2 = 'a' := by
    intro m
    unfold process_mod
    induction m.2 with
    | nil => intro st h; exact h
    | cons rec rest ih =>
      intro st h
      rw [List.foldl_cons]
      exact ih _ (process_tag_record_open_events mods nsToMod rec st h)
  have hbatch : ∀ (b : List (String × List TagFileRec)) (st : WriterState),
      (∀ e ∈ st.open_events, e.2 = 'a') →
      ∀ e ∈ (process_batch mods nsToMod st b).open_events, e.2 = 'a' := by
    intro b
    unfold process_batch
    induction b with
    | nil => intro st h; exact h
    | cons m rest ih =>
      intro st h
      rw [List.foldl_cons]
      exact ih _ (hmod m st h)
  have hgen : ∀ (bs : List (List (String × List TagFileRec))) (st : WriterState),
      (∀ e ∈ st.open_events, e.2 = 'a') →
      ∀ e ∈ (bs.foldl (process_batch mods nsToMod) st).open_events, e.2 = 'a' := by
    intro bs
    induction bs with
    | nil => intro st h; exact h
    | cons b rest ih =>
      intro st h
      rw [List.foldl_cons]
      exact ih _ (hbatch b st h)
  exact hgen _ writer_init (fun e he => absurd he (List.not_mem_nil e))

/-- C7: the batched writer's descriptor discipline.  The cached open-handle
count never exceeds the number of distinct keys written in the current batch
— the bound holds initially, is preserved by every cached write and by every
record/mod processing step, and every state of a full run satisfies it; at
every batch boundary the cache is emptied (all cached handles flushed,
closed, removed) and the per-batch touched set resets; and every cached
handle open is in append mode. -/
theorem C7_writer_descriptor_bound :
    (∀ st : WriterState, WriterInv st →
      st.item_to_tags_files.length ≤ st.touched.length) ∧
    WriterInv writer_init ∧
    (∀ key tag_entry st, WriterInv st → WriterInv (writeItemTag key tag_entry st)) ∧
    (∀ mods nsToMod rec st, WriterInv st →
      WriterInv (process_tag_record mods nsToMod rec st)) ∧
    (∀ mods nsToMod m st, WriterInv st → WriterInv (process_mod mods nsToMod st m)) ∧
    (∀ st : WriterState, (batch_end st).item_to_tags_files = [] ∧
      (batch_end st).touched = []) ∧
    (∀ mods nsToMod modsList, WriterInv (run_tag_discovery mods nsToMod modsList)) ∧
    (∀ mods nsToMod modsList,
      ∀ e ∈ (run_tag_discovery mods nsToMod modsList).open_events, e.2 = 'a') := by
  refine ⟨fun st h => nodup_subset_length_le h.1 h.2,
    ⟨List.nodup_nil, fun k hk => absurd hk (List.not_mem_nil k)⟩,
    writeItemTag_inv,
    process_tag_record_inv,
    fun mods nsToMod m st h => process_mod_inv mods nsToMod m st h,
    fun st => ⟨rfl, rfl⟩,
    run_tag_discovery_inv,
    run_tag_discovery_open_events⟩

/-- C7 witness: the invariant discharged on a concrete state and write. -/
theorem C7_writer_descriptor_bound_witness :
    WriterInv writer_init ∧
    ([("dirt", true)].length ≤ [("dirt", true), ("stone", false)].length) ∧
    WriterInv (writeItemTag ("iron_ingot", true) "items: c:ingots"
      { item_to_tags_files := [("dirt", true)]
        item_to_tags_written := []
        touched := [("dirt", true), ("stone", false)]
        open_events := []
        tag_file_events := [] }) := by
  have hinv : WriterInv
      { item_to_tags_files := [("dirt", true)]
        item_to_tags_written := []
        touched := [("dirt", true), ("stone", false)]
        open_events := []
        tag_file_events := [] } := by decide
  refine ⟨C7_writer_descriptor_bound.2.1, ?_, C7_writer_descriptor_bound.2.2.1 _ _ _ hinv⟩
  exact C7_writer_descriptor_bound.1 _ hinv

/-! ## Worker-pool sizing (`src/arg_parser.py`, `src/utils/threading.py`,
`src/scanner_common.py`)

`os.cpu_count()` returns `None` when it cannot determine the count, modelled
as `Option Nat`; the user-supplied `--threads` is `Option Nat` (`None` when
omitted).  Python's `or` treats both `None` and `0` as falsy. -/

/-- `x or y` for an optional count with a `Nat` fallback (`None`/`0` falsy). -/
def py_or_count (v : Option Nat) (fallback : Nat) : Nat :=
  match v with
  | some n => if n ≠ 0 then n else fallback
  | none => fallback

/-- `get_thread_count(args) = args.threads or os.cpu_count() or 4`. -/
def get_thread_count (argsThreads cpuCount : Option Nat) : Nat :=
  py_or_count argsThreads (py_or_count cpuCount 4)

/-- The pool size `ThreadPoolExecutor(max_workers=...)` receives in
`execute_concurrent` (`max_workers` defaults to `os.cpu_count() or 4` when
`None`). -/
def execute_concurrent_pool_size (maxWorkers cpuCount : Option Nat) : Nat :=
  match maxWorkers with
  | none => py_or_count cpuCount 4
  | some w => w

/-- The pool size of a `run_scanner` run: `run_scanner` passes
`get_thread_count(args)` as `max_workers` to `execute_concurrent`. -/
def run_scanner_pool_size (argsThreads cpuCount : Option Nat) : Nat :=
  execute_concurrent_pool_size (some (get_thread_count argsThreads cpuCount)) cpuCount

/-- C8 (counterexample): the worker-pool size is *not*
`min(configured_threads, cpu_count)`.  With `--threads 8` on a 2-CPU
machine the pool has 8 workers, not `min(8, 2) = 2`. -/
theorem C8_pool_size_cex :
    run_scanner_pool_size (some 8) (some 2) = 8 ∧
    Nat.min 8 2 = 2 ∧
    run_scanner_pool_size (some 8) (some 2) ≠ Nat.min 8 2 := by
  refine ⟨rfl, rfl, by decide⟩

/-- C8 (amended): the worker pool that processes a batch of archives has
size `configured_threads` whenever the user supplied a non-zero thread
count — the CPU count is not consulted and no `min` is applied — and
otherwise `cpu_count` (or 4 when the CPU count is undeterminable or zero). -/
theorem C8_pool_size_amended :
    (∀ (n : Nat) (c : Option Nat), 0 < n → run_scanner_pool_size (some n) c = n) ∧
    (∀ m : Nat, 0 < m → run_scanner_pool_size none (some m) = m) ∧
    run_scanner_pool_size none none = 4 := by
  refine ⟨?_, ?_, rfl⟩
  · intro n c hn
    simp only [run_scanner_pool_size, execute_concurrent_pool_size, get_thread_count,
      py_or_count]
    rw [if_pos (Nat.pos_iff_ne_zero.mp hn)]
  · intro m hm
    simp only [run_scanner_pool_size, execute_concurrent_pool_size, get_thread_count,
      py_or_count]
    rw [if_pos (Nat.pos_iff_ne_zero.mp hm)]

/-- C8 witness: the amended theorem at `--threads 8` with 2 CPUs and at an
omitted thread count with 6 CPUs. -/
theorem C8_pool_size_witness :
    (0 < 8 ∧ run_scanner_pool_size (some 8) (some 2) = 8) ∧
    (0 < 6 ∧ run_scanner_pool_size none (some 6) = 6) := by
  exact ⟨⟨by decide, C8_pool_size_amended.1 8 (some 2) (by decide)⟩,
    ⟨by decide, C8_pool_size_amended.2.1 6 (by decide)⟩⟩

/-! ## Empty-input behaviour (`src/jar_processor.py`, `src/scanner_common.py`,
`core/scanner/mods.py`)

An archive directory is modelled as a list of `(filename, is_valid_zip)`
pairs.  `find_jar_files` selects by the `*.jar` glob only — it never opens
the archives — and raises `ValueError` when the selection is empty;
`run_scanner` catches that and calls `sys.exit(1)`.  A jar that fails to
open later is logged and skipped (`process_jar_entries` catches
`zipfile.BadZipFile`), and the run completes normally. -/

def is_jar_name (n : String) : Bool :=
  endsw n.data ".jar".data

/-- `find_jar_files(input_dir)`: glob for `*.jar`, `ValueError` when none. -/
def find_jar_files (entries : List String) : Except String (List String) :=
  let jars := entries.filter is_jar_name
  if jars.isEmpty then Except.error "No .jar files found" else Except.ok jars

inductive RunOutcome where
  | exited (code : Nat)
  | completed (scanned : List String) (warnings : Nat)
deriving DecidableEq

/-- The control flow of `run_scanner` around archive discovery: exit(1) when
`find_jar_files` raises; otherwise scan every jar, warning-and-skipping the
invalid ones, and complete. -/
def run_scanner_outcome (archives : List (String × Bool)) : RunOutcome :=
  match find_jar_files (archives.map Prod.fst) with
  | Except.error _ => RunOutcome.exited 1
  | Except.ok jars =>
    RunOutcome.completed
      (jars.filter (fun j => (archives.lookup j).getD false))
      (jars.filter (fun j => !((archives.lookup j).getD false))).length

inductive ScanOutcome where
  | stoppedEarly
  | completedScan
deriving DecidableEq

/-- The control flow of the core scanner: `discover_mods_and_namespaces`
returns an empty mods dict exactly when the directory has no `*.jar` files
(every jar file yields a mod id, falling back to its filename), and `scan`
returns before any scanning phase when the mods dict is empty. -/
def core_scan_outcome (jarNames : List String) : ScanOutcome :=
  if (jarNames.filter is_jar_name).isEmpty then ScanOutcome.stoppedEarly
  else ScanOutcome.completedScan

/-- C9 (counterexample): a directory holding a single corrupt `.jar` has
zero *valid* archives, yet the run does not stop with a terminating signal:
`find_jar_files` only globs by filename, the corrupt archive is
warn-and-skipped, and `run_scanner` completes with empty output and one
warning. -/
theorem C9_zero_valid_archives_cex :
    run_scanner_outcome [("bad.jar", false)] = RunOutcome.completed [] 1 ∧
    RunOutcome.completed [] 1 ≠ RunOutcome.exited 1 := by
  refine ⟨by decide, by decide⟩

/-- C9 (amended): the terminating condition is reported when the input
directory contains zero `.jar` *files*: `find_jar_files` raises
`ValueError`, `run_scanner` catches it and stops the run with `sys.exit(1)`,
and the core scanner returns before any scanning phase; archives that are
present but invalid are skipped with a logged warning and the run completes
(possibly with empty output). -/
theorem C9_no_jar_files_terminates (archives : List (String × Bool))
    (h : (archives.map Prod.fst).filter is_jar_name = []) :
    run_scanner_outcome archives = RunOutcome.exited 1 ∧
    core_scan_outcome (archives.map Prod.fst) = ScanOutcome.stoppedEarly := by
  constructor
  · unfold run_scanner_outcome find_jar_files
    rw [h]
    rfl
  · unfold core_scan_outcome
    rw [h]
    rfl

/-- C9 witness: the amended theorem applied to a directory holding only a
readme file. -/
theorem C9_no_jar_files_witness :
    ([("readme.txt", true)].map Prod.fst).filter is_jar_name = [] ∧
    run_scanner_outcome [("readme.txt", true)] = RunOutcome.exited 1 ∧
    core_scan_outcome (["readme.txt"]) = ScanOutcome.stoppedEarly := by
  have h : ([("readme.txt", true)].map Prod.fst).filter is_jar_name = [] := by decide
  exact ⟨h, (C9_no_jar_files_terminates [("readme.txt", true)] h).1,
    (C9_no_jar_files_terminates [("readme.txt", true)] h).2⟩

/-- C10: `sanitize_filename` is not injective — the distinct tag ids
`a:b_c` and `a_b:c` (and likewise any `:`/`/` versus `_` variation) map to
the same sanitized filename `a_b_c`, hence to the same per-tag output file
path, and that file is opened in overwrite (`'w'`) mode, so the second tag
written silently replaces the first. -/
theorem C10_sanitize_not_injective :
    "a:b_c" ≠ "a_b:c" ∧
    sanitize_filename "a:b_c" = sanitize_filename "a_b:c" ∧
    sanitize_filename "a:b_c" = "a_b_c" ∧
    tag_file_path "items" "a:b_c" = tag_file_path "items" "a_b:c" ∧
    tag_file_mode = 'w' := by
  refine ⟨by decide, by decide, by decide, by decide, rfl⟩

end RDTools
